import Mathlib

/-!
Verification of the Patchboard message-routing fabric.

This file gives a shallow embedding of the two coupled routing engines of the
repository — the in-memory IntraFlow runtime (`src/intraflow/intraflow.py`)
and the filesystem Patchboard router (`src/patchboard_router/router.py`) —
and proves the stated routing, scheduling, persistence and recovery
properties over that embedding.

Modelling conventions:
* Python dicts keyed by component id become association lists of `Component`
  values observed through `lookupComp`; updates rewrite the entry in place,
  so observations through `lookupComp` agree with the Python dict.
* `signal` payloads are opaque to the fabric (the code only copies them), so
  they are modelled by an opaque `Signal := String`.
* Component activations are arbitrary Python callables that, in this
  codebase, read and mutate only the component being activated (through the
  ambient `g["component"]` context); they are modelled as a family
  `acts : String → Option Message → Component → Component` keyed by
  component id.
* Machine-level aliasing of the fanout copies (needed for the
  object-identity property of Phase 1) is modelled separately in a small
  heap-based refinement of the fanout loop, where message envelopes and
  signal payloads live at numeric heap addresses.
-/

namespace IntraFlow

/-- Opaque signal payload; the fabric never inspects it, it only copies the
reference (`intraflow.py`, `route_everything`). -/
abbrev Signal := String

/-- A Patchboard message envelope (`make_message`): channel, signal payload
and timestamp string. -/
structure Message where
  channel : String
  signal : Signal
  timestamp : String
deriving DecidableEq, Repr

/-- An IntraFlow component (`_make_component_dict` plus the `id` key set by
`declare_component`): inbox and outbox are FIFO message lists.  The
`activation` callable is kept outside the structure (see `acts` family);
`state` is an opaque bag the fabric never inspects. -/
structure Component where
  id : String
  inbox : List Message
  outbox : List Message
  always_active : Bool
  state : Signal
deriving DecidableEq, Repr

/-- A compiled IntraFlow route (`add_route`): source and destination are
identified by registered component id, with the channel-rewriting pair and
the persistence flag. -/
structure Route where
  src : String
  srcChannel : String
  dest : String
  destChannel : String
  persistent : Bool
deriving DecidableEq, Repr

/-- The component registry `components` (a Python dict, id → component),
modelled as the list of its entries in insertion order. -/
abbrev Registry := List Component

/-- Dict lookup `components[i]` / dereference of a component ref. -/
def lookupComp (comps : Registry) (i : String) : Option Component :=
  comps.find? (fun c => c.id == i)

/-- In-place update of the component object with id `i`. -/
def updateComp (comps : Registry) (i : String) (f : Component → Component) :
    Registry :=
  comps.map (fun c => if c.id == i then f c else c)

/-- The inbox of component `i` ([] when unregistered). -/
def inboxOf (comps : Registry) (i : String) : List Message :=
  match lookupComp comps i with
  | some c => c.inbox
  | none => []

/-- The outbox of component `i` ([] when unregistered). -/
def outboxOf (comps : Registry) (i : String) : List Message :=
  match lookupComp comps i with
  | some c => c.outbox
  | none => []

/-- First-occurrence deduplication: the key order of the Python dict
`route_index` built by `route_everything` (a key appears at its first
insertion). -/
def dedupFirst : List String → List String
  | [] => []
  | a :: rest => a :: (dedupFirst rest).filter (fun b => ¬ (b = a))

/-- The sources of the routing table in `route_index` iteration order. -/
def srcList (routes : List Route) : List String :=
  dedupFirst (routes.map (·.src))

/-- `route_index[src][channel]`: the fanout list of `(dest, dest-channel)`
pairs for a source and channel, in routing-table order. -/
def fanoutFor (routes : List Route) (s chan : String) :
    List (String × String) :=
  routes.filterMap (fun r =>
    if r.src = s ∧ r.srcChannel = chan then some (r.dest, r.destChannel)
    else none)

/-- The channel-rewritten copy built for one destination
(`route_everything`, the `new_msg` dict): fresh channel, same signal and
timestamp. -/
def rewrite (destChannel : String) (m : Message) : Message :=
  { channel := destChannel, signal := m.signal, timestamp := m.timestamp }

/-- `dest["inbox"].append(new_msg)`. -/
def deliver (comps : Registry) (d : String) (m : Message) : Registry :=
  updateComp comps d (fun c => { c with inbox := c.inbox ++ [m] })

/-- Fan one drained message out to every matching destination. -/
def processMsg (routes : List Route) (s : String) (comps : Registry)
    (m : Message) : Registry :=
  (fanoutFor routes s m.channel).foldl
    (fun cs dd => deliver cs dd.1 (rewrite dd.2 m)) comps

/-- Drain one source: zero its outbox, then fan out each drained message. -/
def processSrc (routes : List Route) (comps : Registry) (s : String) :
    Registry :=
  match lookupComp comps s with
  | none => comps
  | some c =>
      let msgs := c.outbox
      let comps1 := updateComp comps s (fun c0 => { c0 with outbox := [] })
      msgs.foldl (processMsg routes s) comps1

/-- Phase 1 (`route_everything`): drain every source appearing in the
routing table, in first-occurrence order, delivering channel-rewritten
copies. -/
def route_everything (routes : List Route) (comps : Registry) : Registry :=
  (srcList routes).foldl (processSrc routes) comps

/-- The deliveries of one drained message that land on destination `d`
(one per matching route, channel-rewritten). -/
def matchingDeliveries (routes : List Route) (s : String) (m : Message)
    (d : String) : List Message :=
  ((fanoutFor routes s m.channel).filter (fun p => p.1 = d)).map
    (fun p => rewrite p.2 m)

/-- Declarative characterisation of Phase 1's deliveries to destination `d`:
for each table source in index order, for each pending outbox message, one
rewritten copy per matching route whose destination is `d`. -/
def deliveredSpec (routes : List Route) (comps : Registry) (d : String) :
    List Message :=
  (srcList routes).flatMap (fun s =>
    (outboxOf comps s).flatMap (fun m => matchingDeliveries routes s m d))

/-- One component's turn (`activate_one_turn_per_component` loop body):
pop the oldest inbox message if any, else activate with no message when
`always_active`, else skip.  Returns the updated component and the
activation record `(id, message)` when an activation ran. -/
def activateComp (acts : String → Option Message → Component → Component)
    (c : Component) : Component × Option (String × Option Message) :=
  match c.inbox with
  | m :: rest =>
      (acts c.id (some m) { c with inbox := rest }, some (c.id, some m))
  | [] =>
      if c.always_active then (acts c.id none c, some (c.id, none))
      else (c, none)

/-- Phase 2 (`activate_one_turn_per_component`): visit components in
registry insertion order, giving each at most one turn; also returns the
trace of activations in execution order. -/
def activate_one_turn_per_component
    (acts : String → Option Message → Component → Component)
    (comps : Registry) : Registry × List (String × Option Message) :=
  (comps.map (fun c => (activateComp acts c).1),
   comps.filterMap (fun c => (activateComp acts c).2))

/-- The activation record claimed for one component in Phase 2: the oldest
inbox message when the inbox is non-empty, a null-message activation when
`always_active`, nothing otherwise. -/
def turnRecord (c : Component) : Option (String × Option Message) :=
  match c.inbox with
  | m :: _ => some (c.id, some m)
  | [] => if c.always_active then some (c.id, none) else none

/-- `run_cycle`: Phase 1 then Phase 2. -/
def run_cycle (routes : List Route)
    (acts : String → Option Message → Component → Component)
    (comps : Registry) : Registry :=
  (activate_one_turn_per_component acts (route_everything routes comps)).1

/-- `n` consecutive cycles. -/
def cyclesFrom (routes : List Route)
    (acts : String → Option Message → Component → Component) :
    Nat → Registry → Registry
  | 0, comps => comps
  | n + 1, comps => cyclesFrom routes acts n (run_cycle routes acts comps)

/-- `is_quiescent`: every registered component's inbox and outbox are
empty. -/
def is_quiescent (comps : Registry) : Bool :=
  comps.all (fun c => c.inbox.isEmpty && c.outbox.isEmpty)

/-- The `while not is_quiescent(): run_cycle()` loop of `run`, with explicit
fuel (the Python loop is unbounded); returns the final registry and the
number of cycles the loop body executed, or `none` if the fuel is
exhausted before quiescence. -/
def runQAux (routes : List Route)
    (acts : String → Option Message → Component → Component) :
    Nat → Registry → Option (Registry × Nat)
  | 0, comps => if is_quiescent comps then some (comps, 0) else none
  | fuel + 1, comps =>
      if is_quiescent comps then some (comps, 0)
      else
        (runQAux routes acts fuel (run_cycle routes acts comps)).map
          (fun p => (p.1, p.2 + 1))

/-- `run(cycles)`: for `cycles > 0` exactly that many cycles; otherwise one
cycle followed by the run-until-quiescent loop.  Returns the final registry
and the number of cycles executed. -/
def run (routes : List Route)
    (acts : String → Option Message → Component → Component)
    (cycles : Int) (fuel : Nat) (comps : Registry) :
    Option (Registry × Nat) :=
  if cycles > 0 then
    some (cyclesFrom routes acts cycles.toNat comps, cycles.toNat)
  else
    (runQAux routes acts fuel (run_cycle routes acts comps)).map
      (fun p => (p.1, p.2 + 1))

end IntraFlow

namespace IntraFlowHeap

/-!
Heap-based refinement of the Phase 1 fanout loop
(`route_everything`, the `for (dest, dest_channel) in fanout` body).

In CPython every message is a dict object; `new_msg` is a fresh dict per
destination, but its `"signal"` entry is the *same object reference* as the
original message's.  To reason about object identity we give envelopes and
signal payloads numeric heap addresses: `MsgObj` is an envelope whose
signal field is an address into a signal heap, inboxes hold envelope
addresses, and allocation appends to the envelope heap.
-/

/-- A message envelope object: channel and timestamp are immutable strings
copied into the fresh dict; `sigRef` is the address of the shared signal
payload object. -/
structure MsgObj where
  channel : String
  sigRef : Nat
  timestamp : String
deriving DecidableEq, Repr

/-- A component, reduced to what the fanout loop touches: its id and its
inbox of envelope addresses. -/
structure HComp where
  id : String
  inbox : List Nat
deriving DecidableEq, Repr

/-- Inbox of the component with id `d`. -/
def hInboxOf (comps : List HComp) (d : String) : List Nat :=
  match comps.find? (fun c => c.id == d) with
  | some c => c.inbox
  | none => []

/-- `dest["inbox"].append(new_msg)` at the address level. -/
def hDeliver (comps : List HComp) (d : String) (ref : Nat) : List HComp :=
  comps.map (fun c => if c.id == d then { c with inbox := c.inbox ++ [ref] }
                      else c)

/-- The fanout loop of `route_everything` for one drained message `m`:
for each `(dest, dest_channel)` pair allocate a fresh envelope
`{channel := dest_channel, signal := m.signal, timestamp := m.timestamp}`
(the signal *address* is copied, not the payload) and append its address to
the destination's inbox. -/
def fanoutDeliver (heap : List MsgObj) (m : MsgObj) :
    List (String × String) → List HComp → List MsgObj × List HComp
  | [], comps => (heap, comps)
  | dd :: F, comps =>
      fanoutDeliver
        (heap ++ [{ channel := dd.2, sigRef := m.sigRef,
                    timestamp := m.timestamp }])
        m F (hDeliver comps dd.1 heap.length)

/-- The envelope addresses allocated for destination `d` when the fanout
list is traversed starting from heap size `base`. -/
def refsFor (base : Nat) (d : String) : List (String × String) → List Nat
  | [] => []
  | dd :: F => (if dd.1 = d then [base] else []) ++ refsFor (base + 1) d F

/-- In-place mutation of one heap cell (e.g. assigning to a field of one
delivered message object). -/
def modifyAt {α : Type} : List α → Nat → (α → α) → List α
  | [], _, _ => []
  | a :: t, 0, f => f a :: t
  | a :: t, n + 1, f => a :: modifyAt t n f

/-- The signal payload one observes by reading `msg["signal"]` through an
envelope address: follow the envelope's `sigRef` into the signal heap. -/
def observedSignal (sigHeap : List IntraFlow.Signal) (heap : List MsgObj)
    (ref : Nat) : Option IntraFlow.Signal :=
  match heap[ref]? with
  | some o => sigHeap[o.sigRef]?
  | none => none

end IntraFlowHeap

namespace IntraFlowWire

/-!
The Patchboard wiring console (`intraflow.py`, the `wire` dict and
`address_source` / `address_dest` / `persist_links` / `link_channels` /
`commit_links`).

An addressing value is either an id string (resolved against the registry
at commit time) or a direct component reference; a direct reference is
modelled by its object identity (a number) together with `dict.get("id")`
(anonymous components have no `"id"` key).
-/

/-- What `address_source` / `address_dest` accept: an id string or a
component dict. -/
inductive WAddr where
  | byId (i : String)
  | byRef (ref : Nat) (ident : Option String)
deriving DecidableEq, Repr

/-- The `wire` console state. -/
structure Wire where
  src : Option WAddr
  dest : Option WAddr
  persist : Bool
  links : List (String × String)
deriving DecidableEq, Repr

/-- The `wire` dict after `reset()`. -/
def initWire : Wire := { src := none, dest := none, persist := false, links := [] }

/-- `address_source(x)`: assign the source and reset wiring state. -/
def address_source (w : Wire) (x : WAddr) : Wire :=
  { w with src := some x, persist := false, links := [] }

/-- `address_dest(x)`: assign the destination. -/
def address_dest (w : Wire) (x : WAddr) : Wire :=
  { w with dest := some x }

/-- `persist_links()`. -/
def persist_links (w : Wire) : Wire :=
  { w with persist := true }

/-- `link_channels(src_channel, dest_channel)`: stage a channel mapping;
fails if either address is unset. -/
def link_channels (w : Wire) (sc dc : String) : Except String Wire :=
  if w.src = none then .error "No source component addressed"
  else if w.dest = none then .error "No destination component addressed"
  else .ok { w with links := w.links ++ [(sc, dc)] }

/-- A route as built by `commit_links` and validated by `add_route`:
endpoints are live refs (object identities) plus the optional ids. -/
structure WRoute where
  src_id : Option String
  src : Nat
  srcChannel : String
  dest_id : Option String
  dest : Nat
  destChannel : String
  persistent : Bool
deriving DecidableEq, Repr

/-- Resolve one wiring address the way `commit_links` does: an id string is
looked up in the registry (error when absent); a component dict is used
directly, its id taken from `dict.get("id")`. -/
def resolveAddr (reg : String → Option Nat) (x : WAddr) :
    Except String (Nat × Option String) :=
  match x with
  | .byId i =>
      match reg i with
      | some ref => .ok (ref, some i)
      | none => .error "Component not found"
  | .byRef ref ident => .ok (ref, ident)

/-- The validation `add_route` applies to a route built by `commit_links`
(src/dest refs are present, so only the id-consistency and persistence
checks can fire): a provided id must resolve to the provided ref, and a
persistent route requires both ids. -/
def addRouteChecked (reg : String → Option Nat) (r : WRoute) :
    Except String WRoute := do
  match r.src_id with
  | some i =>
      if reg i = some r.src then pure ()
      else throw "src_id does not match provided src ref"
  | none => pure ()
  match r.dest_id with
  | some j =>
      if reg j = some r.dest then pure ()
      else throw "dest_id does not match provided dest ref"
  | none => pure ()
  if r.persistent then
    if r.src_id = none then throw "Persistent route requires src_id"
    else if r.dest_id = none then throw "Persistent route requires dest_id"
    else pure r
  else pure r

/-- Build and validate the staged routes, in staging order. -/
def buildLinks (reg : String → Option Nat) (src : Nat × Option String)
    (dest : Nat × Option String) (persist : Bool) :
    List (String × String) → Except String (List WRoute)
  | [] => .ok []
  | (sc, dc) :: rest => do
      let r : WRoute :=
        { src_id := src.2, src := src.1, srcChannel := sc,
          dest_id := dest.2, dest := dest.1, destChannel := dc,
          persistent := persist }
      let r ← addRouteChecked reg r
      let rs ← buildLinks reg src dest persist rest
      .ok (r :: rs)

/-- `commit_links()`: fails without a source, a destination, or staged
links; resolves the addresses, creates one route per staged pair via
`add_route`, then clears the staged links and the persist flag, preserving
the addressing. -/
def commit_links (reg : String → Option Nat) (w : Wire) :
    Except String (Wire × List WRoute) :=
  match w.src with
  | none => .error "No source component addressed"
  | some s =>
      match w.dest with
      | none => .error "No destination component addressed"
      | some d =>
          if w.links = [] then .error "No channel links staged"
          else do
            let sr ← resolveAddr reg s
            let dr ← resolveAddr reg d
            let rs ← buildLinks reg sr dr w.persist w.links
            .ok ({ w with links := [], persist := false }, rs)

end IntraFlowWire

namespace Patchboard

/-!
The filesystem Patchboard router (`src/patchboard_router/router.py`):
routing table with canonicalized folder paths, the `events.jsonl` log and
its replay, and the la-la delivery pass (plan / copy / delete).
-/

/-- A routing-table entry (`_make_route_dict`): both folder paths are
already in canonical form. -/
structure FsRoute where
  sourceFolder : String
  sourceChannel : String
  destinationChannel : String
  destinationFolder : String
deriving DecidableEq, Repr

/-- `_make_route_dict`: canonicalize the folder paths (`canon` stands for
`Path.resolve`). -/
def mkRoute (canon : String → String) (sf sc dc df : String) : FsRoute :=
  { sourceFolder := canon sf, sourceChannel := sc,
    destinationChannel := dc, destinationFolder := canon df }

/-- One line of `events.jsonl` as seen by the replay loop: an unparseable
(or truncated) line, a blank line, a route event, or any other event
(`startup`, `shutdown`, unknown types). -/
inductive LogLine where
  | junk : LogLine
  | blank : LogLine
  | routeAdded (r : FsRoute) : LogLine
  | routeRemoved (r : FsRoute) : LogLine
  | other (tag : String) : LogLine
deriving DecidableEq, Repr

/-- One step of `replay_events_log_and_rebuild_routing_table`: blank and
unparseable lines are skipped, `route_added` appends unless structurally
present, `route_removed` removes the first structural match, anything else
is skipped. -/
def replayStep (tbl : List FsRoute) : LogLine → List FsRoute
  | .junk => tbl
  | .blank => tbl
  | .other _ => tbl
  | .routeAdded r => if r ∈ tbl then tbl else tbl ++ [r]
  | .routeRemoved r => if r ∈ tbl then tbl.erase r else tbl

/-- Replay a whole log onto the empty table. -/
def replay (lines : List LogLine) : List FsRoute :=
  lines.foldl replayStep []

/-- `add_route`: returns whether added, the new table, and the appended
event lines (duplicate → `False`, unchanged, nothing logged). -/
def add_route (tbl : List FsRoute) (r : FsRoute) :
    Bool × List FsRoute × List LogLine :=
  if r ∈ tbl then (false, tbl, [])
  else (true, tbl ++ [r], [LogLine.routeAdded r])

/-- `remove_route`: returns whether removed, the new table, and the
appended event lines (miss → `False`, unchanged, nothing logged). -/
def remove_route (tbl : List FsRoute) (r : FsRoute) :
    Bool × List FsRoute × List LogLine :=
  if r ∈ tbl then (true, tbl.erase r, [LogLine.routeRemoved r])
  else (false, tbl, [])

/-- A routing-table mutation requested through the control inbox. -/
inductive Op where
  | add (r : FsRoute)
  | remove (r : FsRoute)
deriving DecidableEq, Repr

/-- Apply one mutation to the live table, collecting the event lines it
appends to `events.jsonl`. -/
def applyOp (tbl : List FsRoute) : Op → List FsRoute × List LogLine
  | .add r => ((add_route tbl r).2.1, (add_route tbl r).2.2)
  | .remove r => ((remove_route tbl r).2.1, (remove_route tbl r).2.2)

/-- Run a sequence of mutations, concatenating the appended event lines in
append order. -/
def runOps (tbl : List FsRoute) : List Op → List FsRoute × List LogLine
  | [] => (tbl, [])
  | op :: ops =>
      let t1 := (applyOp tbl op).1
      let rest := runOps t1 ops
      (rest.1, (applyOp tbl op).2 ++ rest.2)

/-- A message parsed from a `*.json` file (`channel` defaults to `""` when
the key is absent, as in `msg.get("channel", "")`). -/
structure FsMsg where
  channel : String
  signal : IntraFlow.Signal
  timestamp : String
deriving DecidableEq, Repr

/-- A source file found by `folder.glob("*.json")`: its path and the result
of `read_message` (`none` = unreadable). -/
structure SrcFile where
  path : String
  parsed : Option FsMsg
deriving DecidableEq, Repr

/-- `routes_for_source`: the `(dest_channel, dest_folder)` pairs whose
source folder matches and whose source channel equals the message channel
or is the wildcard `"*"`. -/
def routes_for_source (tbl : List FsRoute) (folder chan : String) :
    List (String × String) :=
  tbl.filterMap (fun r =>
    if r.sourceFolder = folder ∧
       (r.sourceChannel = chan ∨ r.sourceChannel = "*") then
      some (r.destinationChannel, r.destinationFolder)
    else none)

/-- A planned copy operation: source file path, parsed message, destination
folder and rewritten channel. -/
structure CopyOp where
  src : String
  msg : FsMsg
  destFolder : String
  destChannel : String
deriving DecidableEq, Repr

/-- The delivery counters of `g["stats"]` that the pass updates. -/
structure Stats where
  seen : Nat
  delivered : Nat
  deleted : Nat
  skipped_unreadable : Nat
  skipped_missing_folder : Nat
  discarded_unrouted : Nat
deriving DecidableEq, Repr

/-- `_plan_deliveries` over the flattened traversal of the existing source
folders (the `(folder, file)` pairs in scan order): unreadable files are
skipped; unrouted files are scheduled for deletion only when
`discard_unrouted`; routed files get one copy per destination and are
scheduled for deletion. -/
def plan_deliveries (tbl : List FsRoute) (discard : Bool) :
    List (String × SrcFile) → Stats → List CopyOp × List String × Stats
  | [], st => ([], [], st)
  | (folder, f) :: rest, st =>
      match f.parsed with
      | none =>
          plan_deliveries tbl discard rest
            { st with skipped_unreadable := st.skipped_unreadable + 1 }
      | some msg =>
          let dests := routes_for_source tbl folder msg.channel
          if dests = [] then
            if discard then
              let r := plan_deliveries tbl discard rest
                { st with discarded_unrouted := st.discarded_unrouted + 1 }
              (r.1, f.path :: r.2.1, r.2.2)
            else
              plan_deliveries tbl discard rest st
          else
            let r := plan_deliveries tbl discard rest
              { st with seen := st.seen + 1 }
            (dests.map (fun dd =>
               { src := f.path, msg := msg, destFolder := dd.2,
                 destChannel := dd.1 }) ++ r.1,
             f.path :: r.2.1, r.2.2)

/-- The copy operations a single scanned file contributes to the plan
(empty when unreadable or unrouted). -/
def fileCopies (tbl : List FsRoute) (folder : String) (f : SrcFile) :
    List CopyOp :=
  match f.parsed with
  | none => []
  | some msg =>
      (routes_for_source tbl folder msg.channel).map (fun dd =>
        { src := f.path, msg := msg, destFolder := dd.2, destChannel := dd.1 })

/-- The delete entries a single scanned file contributes to the plan:
nothing when unreadable, its path when routed, and its path only under
`discard_unrouted` when unrouted. -/
def fileDeletes (tbl : List FsRoute) (discard : Bool) (folder : String)
    (f : SrcFile) : List String :=
  match f.parsed with
  | none => []
  | some msg =>
      if routes_for_source tbl folder msg.channel = [] then
        (if discard then [f.path] else [])
      else [f.path]

/-- Whether the copy at position `i` of the copy list succeeds: the
destination folder must exist (`dest_folder.exists()`; a missing folder is
counted and skipped, never created) and the atomic write must not raise
(`writeOk` is the I/O oracle for that write). -/
def copySucceeds (destExists : String → Bool) (writeOk : Nat → Bool)
    (i : Nat) (c : CopyOp) : Bool :=
  destExists c.destFolder && writeOk i

/-- `_execute_copies`: the `successful` dict flattened to one source-path
entry per successful copy (`successful[src]` then has as many entries as
this list has occurrences of `src`; the freshly named destination paths it
stores are unique, so the list length is the dict entry count).  The
`delivered` counter equals this list's length. -/
def execute_copies (destExists : String → Bool) (writeOk : Nat → Bool)
    (copies : List CopyOp) : List String :=
  (copies.enum.filter (fun p => copySucceeds destExists writeOk p.1 p.2)).map
    (fun p => p.2.src)

/-- `_execute_deletes`: delete a scheduled source file iff it had no
planned copies (unrouted-and-discard case) or every planned copy for it
succeeded (`actual_count >= planned_count` with at least one success).
Returns the paths the pass unlinks (the unlink syscall itself is modelled
as succeeding; the code swallows a failing unlink, which only leaves the
file for the next tick).  The `deleted` counter equals this list's
length. -/
def execute_deletes (copies : List CopyOp) (successful : List String)
    (deletes : List String) : List String :=
  deletes.filter (fun src =>
    if src ∈ copies.map (·.src) then
      decide (src ∈ successful ∧
        (copies.map (·.src)).count src ≤ successful.count src)
    else true)

/-- One whole delivery pass decision (`do_delivery_pass` minus the
filesystem): plan, copy with the given oracles, delete. Returns the copies
planned, the successful-copy list and the deleted source paths. -/
def delivery_pass (tbl : List FsRoute) (discard : Bool)
    (destExists : String → Bool) (writeOk : Nat → Bool)
    (scan : List (String × SrcFile)) (st : Stats) :
    List CopyOp × List String × List String :=
  let planned := plan_deliveries tbl discard scan st
  let copies := planned.1
  let deletes := planned.2.1
  let successful := execute_copies destExists writeOk copies
  (copies, successful, execute_deletes copies successful deletes)

end Patchboard

namespace IntraFlow

theorem lookupComp_update (comps : Registry) (d : String)
    (f : Component → Component) (hf : ∀ c, (f c).id = c.id) (i : String) :
    lookupComp (updateComp comps d f) i =
      if i = d then (lookupComp comps i).map f else lookupComp comps i := by
  induction comps with
  | nil => simp [lookupComp, updateComp]
  | cons c rest ih =>
    unfold lookupComp updateComp at ih ⊢
    simp only [List.map_cons]
    by_cases hd : c.id = d
    · rw [if_pos (by simpa using hd)]
      by_cases hi : c.id = i
      · have hid : i = d := hi.symm.trans hd
        rw [List.find?_cons_of_pos _ (by simp [hf, hi]),
          List.find?_cons_of_pos _ (by simp [hi]), if_pos hid]
        rfl
      · rw [List.find?_cons_of_neg _ (by simp [hf, hi]),
          List.find?_cons_of_neg _ (by simp [hi]), ih]
    · rw [if_neg (by simpa using hd)]
      by_cases hi : c.id = i
      · have hid : ¬ i = d := fun h => hd (hi.symm ▸ h ▸ rfl)
        rw [List.find?_cons_of_pos _ (by simp [hi]),
          List.find?_cons_of_pos _ (by simp [hi]), if_neg hid]
      · rw [List.find?_cons_of_neg _ (by simp [hi]),
          List.find?_cons_of_neg _ (by simp [hi]), ih]

theorem ids_update (comps : Registry) (d : String) (f : Component → Component)
    (hf : ∀ c, (f c).id = c.id) :
    (updateComp comps d f).map (·.id) = comps.map (·.id) := by
  induction comps with
  | nil => rfl
  | cons c rest ih =>
    unfold updateComp at ih ⊢
    simp only [List.map_cons]
    by_cases hd : c.id = d
    · rw [if_pos (by simpa using hd), ih, hf]
    · rw [if_neg (by simpa using hd), ih]

theorem isSome_lookup_iff (comps : Registry) (i : String) :
    (lookupComp comps i).isSome ↔ i ∈ comps.map (·.id) := by
  induction comps with
  | nil => simp [lookupComp]
  | cons c rest ih =>
    unfold lookupComp at ih ⊢
    by_cases hi : c.id = i
    · rw [List.find?_cons_of_pos _ (by simp [hi])]
      simp [hi]
    · rw [List.find?_cons_of_neg _ (by simp [hi])]
      simp only [List.map_cons, List.mem_cons, ih]
      constructor
      · exact Or.inr
      · rintro (h | h)
        · exact (hi h.symm).elim
        · exact h

theorem isSome_lookup_of_ids_eq {comps1 comps2 : Registry}
    (h : comps1.map (·.id) = comps2.map (·.id)) (i : String) :
    (lookupComp comps1 i).isSome ↔ (lookupComp comps2 i).isSome := by
  rw [isSome_lookup_iff, isSome_lookup_iff, h]

theorem inboxOf_deliver_ne (comps : Registry) (d : String) (m : Message)
    (i : String) (h : i ≠ d) :
    inboxOf (deliver comps d m) i = inboxOf comps i := by
  unfold inboxOf deliver
  rw [lookupComp_update comps d
    (fun c => { c with inbox := c.inbox ++ [m] }) (fun _ => rfl) i, if_neg h]

theorem inboxOf_deliver_self (comps : Registry) (d : String) (m : Message)
    (hpres : (lookupComp comps d).isSome) :
    inboxOf (deliver comps d m) d = inboxOf comps d ++ [m] := by
  unfold inboxOf deliver
  rw [lookupComp_update comps d
    (fun c => { c with inbox := c.inbox ++ [m] }) (fun _ => rfl) d, if_pos rfl]
  cases hc : lookupComp comps d with
  | none => rw [hc] at hpres; simp at hpres
  | some c => simp

theorem outboxOf_deliver (comps : Registry) (d : String) (m : Message)
    (j : String) :
    outboxOf (deliver comps d m) j = outboxOf comps j := by
  unfold outboxOf deliver
  rw [lookupComp_update comps d
    (fun c => { c with inbox := c.inbox ++ [m] }) (fun _ => rfl) j]
  by_cases h : j = d
  · rw [if_pos h]
    cases lookupComp comps j <;> simp
  · rw [if_neg h]

theorem ids_deliver (comps : Registry) (d : String) (m : Message) :
    (deliver comps d m).map (·.id) = comps.map (·.id) :=
  ids_update _ _ _ (fun _ => rfl)

theorem foldDeliver_inboxOf (m : Message) (F : List (String × String))
    (comps : Registry) (i : String)
    (hpres : (lookupComp comps i).isSome) :
    inboxOf
      (F.foldl (fun cs dd => deliver cs dd.1 (rewrite dd.2 m)) comps) i
      = inboxOf comps i ++
        (F.filter (fun p => p.1 = i)).map (fun p => rewrite p.2 m) := by
  induction F generalizing comps with
  | nil => simp
  | cons dd F ih =>
    have hpres' : (lookupComp (deliver comps dd.1 (rewrite dd.2 m)) i).isSome :=
      (isSome_lookup_of_ids_eq (ids_deliver comps dd.1 _) i).mpr hpres
    rw [List.foldl_cons, ih _ hpres']
    by_cases h : dd.1 = i
    · subst h
      rw [inboxOf_deliver_self comps dd.1 _ hpres]
      simp [List.filter_cons, List.append_assoc]
    · rw [inboxOf_deliver_ne comps dd.1 _ i (fun he => h he.symm)]
      simp [List.filter_cons, h]

theorem foldDeliver_outboxOf (m : Message) (F : List (String × String))
    (comps : Registry) (j : String) :
    outboxOf
      (F.foldl (fun cs dd => deliver cs dd.1 (rewrite dd.2 m)) comps) j
      = outboxOf comps j := by
  induction F generalizing comps with
  | nil => rfl
  | cons dd F ih => rw [List.foldl_cons, ih, outboxOf_deliver]

theorem foldDeliver_ids (m : Message) (F : List (String × String))
    (comps : Registry) :
    (F.foldl (fun cs dd => deliver cs dd.1 (rewrite dd.2 m)) comps).map
        (·.id)
      = comps.map (·.id) := by
  induction F generalizing comps with
  | nil => rfl
  | cons dd F ih => rw [List.foldl_cons, ih, ids_deliver]

theorem processMsg_inboxOf (routes : List Route) (s : String)
    (comps : Registry) (m : Message) (i : String)
    (hpres : (lookupComp comps i).isSome) :
    inboxOf (processMsg routes s comps m) i
      = inboxOf comps i ++ matchingDeliveries routes s m i :=
  foldDeliver_inboxOf m _ comps i hpres

theorem processMsg_outboxOf (routes : List Route) (s : String)
    (comps : Registry) (m : Message) (j : String) :
    outboxOf (processMsg routes s comps m) j = outboxOf comps j :=
  foldDeliver_outboxOf m _ comps j

theorem processMsg_ids (routes : List Route) (s : String) (comps : Registry)
    (m : Message) :
    (processMsg routes s comps m).map (·.id) = comps.map (·.id) :=
  foldDeliver_ids m _ comps

theorem foldProcessMsg_inboxOf (routes : List Route) (s : String)
    (msgs : List Message) (comps : Registry) (i : String)
    (hpres : (lookupComp comps i).isSome) :
    inboxOf (msgs.foldl (processMsg routes s) comps) i
      = inboxOf comps i ++
        msgs.flatMap (fun m => matchingDeliveries routes s m i) := by
  induction msgs generalizing comps with
  | nil => simp
  | cons m msgs ih =>
    have hpres' : (lookupComp (processMsg routes s comps m) i).isSome :=
      (isSome_lookup_of_ids_eq (processMsg_ids routes s comps m) i).mpr hpres
    rw [List.foldl_cons, ih _ hpres',
      processMsg_inboxOf routes s comps m i hpres]
    simp [List.append_assoc]

theorem foldProcessMsg_outboxOf (routes : List Route) (s : String)
    (msgs : List Message) (comps : Registry) (j : String) :
    outboxOf (msgs.foldl (processMsg routes s) comps) j
      = outboxOf comps j := by
  induction msgs generalizing comps with
  | nil => rfl
  | cons m msgs ih => rw [List.foldl_cons, ih, processMsg_outboxOf]

theorem foldProcessMsg_ids (routes : List Route) (s : String)
    (msgs : List Message) (comps : Registry) :
    (msgs.foldl (processMsg routes s) comps).map (·.id)
      = comps.map (·.id) := by
  induction msgs generalizing comps with
  | nil => rfl
  | cons m msgs ih => rw [List.foldl_cons, ih, processMsg_ids]

theorem inboxOf_outbox_clear (comps : Registry) (s : String) (i : String) :
    inboxOf (updateComp comps s (fun c0 => { c0 with outbox := [] })) i
      = inboxOf comps i := by
  unfold inboxOf
  rw [lookupComp_update comps s
    (fun c0 => { c0 with outbox := [] }) (fun _ => rfl) i]
  by_cases h : i = s
  · rw [if_pos h, h]
    cases lookupComp comps s <;> simp
  · rw [if_neg h]

theorem ids_outbox_clear (comps : Registry) (s : String) :
    (updateComp comps s (fun c0 => { c0 with outbox := [] })).map (·.id)
      = comps.map (·.id) :=
  ids_update _ _ _ (fun _ => rfl)

theorem processSrc_inboxOf (routes : List Route) (comps : Registry)
    (s : String) (i : String) (hpres : (lookupComp comps i).isSome) :
    inboxOf (processSrc routes comps s) i
      = inboxOf comps i ++
        (outboxOf comps s).flatMap
          (fun m => matchingDeliveries routes s m i) := by
  unfold processSrc
  cases hc : lookupComp comps s with
  | none => simp [outboxOf, hc]
  | some c =>
    have hpres1 :
        (lookupComp
          (updateComp comps s (fun c0 => { c0 with outbox := [] })) i).isSome :=
      (isSome_lookup_of_ids_eq (ids_outbox_clear comps s) i).mpr hpres
    rw [foldProcessMsg_inboxOf routes s c.outbox _ i hpres1,
      inboxOf_outbox_clear comps s i]
    simp [outboxOf, hc]

theorem processSrc_outboxOf (routes : List Route) (comps : Registry)
    (s : String) (j : String) :
    outboxOf (processSrc routes comps s) j
      = if j = s then [] else outboxOf comps j := by
  unfold processSrc
  cases hc : lookupComp comps s with
  | none =>
    by_cases h : j = s
    · rw [if_pos h, h]
      simp [outboxOf, hc]
    · rw [if_neg h]
  | some c =>
    rw [foldProcessMsg_outboxOf]
    unfold outboxOf
    rw [lookupComp_update comps s
      (fun c0 => { c0 with outbox := [] }) (fun _ => rfl) j]
    by_cases h : j = s
    · rw [if_pos h, if_pos h, h, hc]
      simp
    · rw [if_neg h, if_neg h]

theorem processSrc_ids (routes : List Route) (comps : Registry) (s : String) :
    (processSrc routes comps s).map (·.id) = comps.map (·.id) := by
  unfold processSrc
  cases lookupComp comps s with
  | none => rfl
  | some c => rw [foldProcessMsg_ids, ids_outbox_clear]

theorem flatMap_congr_mem {α β : Type} {l : List α} {f g : α → List β}
    (h : ∀ x ∈ l, f x = g x) : l.flatMap f = l.flatMap g := by
  induction l with
  | nil => rfl
  | cons a l ih =>
    simp only [List.flatMap_cons]
    rw [h a (List.mem_cons_self a l), ih (fun x hx => h x (List.mem_cons_of_mem a hx))]

theorem foldSrc_inboxOf (routes : List Route) (S : List String)
    (comps : Registry) (i : String) (hS : S.Nodup)
    (hpres : (lookupComp comps i).isSome) :
    inboxOf (S.foldl (processSrc routes) comps) i
      = inboxOf comps i ++
        S.flatMap (fun s =>
          (outboxOf comps s).flatMap
            (fun m => matchingDeliveries routes s m i)) := by
  induction S generalizing comps with
  | nil => simp
  | cons s S ih =>
    have hpres' : (lookupComp (processSrc routes comps s) i).isSome :=
      (isSome_lookup_of_ids_eq (processSrc_ids routes comps s) i).mpr hpres
    rw [List.foldl_cons, ih _ (List.Nodup.of_cons hS) hpres',
      processSrc_inboxOf routes comps s i hpres]
    have houtbox : ∀ s' ∈ S,
        (outboxOf (processSrc routes comps s) s').flatMap
            (fun m => matchingDeliveries routes s' m i)
          = (outboxOf comps s').flatMap
              (fun m => matchingDeliveries routes s' m i) := by
      intro s' hs'
      have hne : s' ≠ s := by
        intro he
        exact (List.nodup_cons.mp hS).1 (he ▸ hs')
      rw [processSrc_outboxOf, if_neg hne]
    rw [flatMap_congr_mem houtbox]
    simp [List.append_assoc]

theorem foldSrc_outboxOf (routes : List Route) (S : List String)
    (comps : Registry) (j : String) :
    outboxOf (S.foldl (processSrc routes) comps) j
      = if j ∈ S then [] else outboxOf comps j := by
  induction S generalizing comps with
  | nil => simp
  | cons s S ih =>
    rw [List.foldl_cons, ih]
    by_cases hj : j ∈ S
    · rw [if_pos hj, if_pos (List.mem_cons_of_mem s hj)]
    · rw [if_neg hj, processSrc_outboxOf]
      by_cases he : j = s
      · rw [if_pos he, if_pos (he ▸ List.mem_cons_self s S)]
      · rw [if_neg he, if_neg (by simp [he, hj])]

theorem foldSrc_ids (routes : List Route) (S : List String)
    (comps : Registry) :
    (S.foldl (processSrc routes) comps).map (·.id) = comps.map (·.id) := by
  induction S generalizing comps with
  | nil => rfl
  | cons s S ih => rw [List.foldl_cons, ih, processSrc_ids]

theorem nodup_dedupFirst (l : List String) : (dedupFirst l).Nodup := by
  induction l with
  | nil => exact List.nodup_nil
  | cons a l ih =>
    rw [dedupFirst, List.nodup_cons]
    constructor
    · intro hmem
      have h2 := List.of_mem_filter hmem
      simp at h2
    · exact List.Nodup.filter _ ih

theorem mem_dedupFirst {l : List String} {x : String} :
    x ∈ dedupFirst l ↔ x ∈ l := by
  induction l with
  | nil => simp [dedupFirst]
  | cons a l ih =>
    rw [dedupFirst]
    simp only [List.mem_cons, List.mem_filter, ih]
    constructor
    · rintro (h | ⟨h, _⟩)
      · exact Or.inl h
      · exact Or.inr h
    · rintro (h | h)
      · exact Or.inl h
      · by_cases he : x = a
        · exact Or.inl he
        · exact Or.inr ⟨h, by simpa using he⟩

theorem mem_srcList {routes : List Route} {j : String} :
    j ∈ srcList routes ↔ ∃ r ∈ routes, r.src = j := by
  rw [srcList, mem_dedupFirst, List.mem_map]

theorem matchingDeliveries_empty_of_no_dest (routes : List Route)
    (s : String) (m : Message) (i : String)
    (hdest : ∀ r ∈ routes, r.dest ≠ i) :
    matchingDeliveries routes s m i = [] := by
  rw [matchingDeliveries, List.filter_eq_nil_iff.mpr, List.map_nil]
  intro p hp
  rcases List.mem_filterMap.mp hp with ⟨r, hr, hro⟩
  by_cases hcond : r.src = s ∧ r.srcChannel = m.channel
  · rw [if_pos hcond] at hro
    cases hro
    simpa using hdest r hr
  · rw [if_neg hcond] at hro
    cases hro

theorem route_everything_inbox_unchanged (routes : List Route)
    (comps : Registry) (i : String) (hdest : ∀ r ∈ routes, r.dest ≠ i) :
    inboxOf (route_everything routes comps) i = inboxOf comps i := by
  by_cases hpres : (lookupComp comps i).isSome
  · rw [route_everything, foldSrc_inboxOf routes (srcList routes) comps i
      (nodup_dedupFirst _) hpres]
    have hnil : ∀ s ∈ srcList routes,
        (outboxOf comps s).flatMap
            (fun m => matchingDeliveries routes s m i) = [] := by
      intro s _
      have : ∀ m ∈ outboxOf comps s,
          matchingDeliveries routes s m i = [] := fun m _ =>
        matchingDeliveries_empty_of_no_dest routes s m i hdest
      rw [flatMap_congr_mem this]
      simp
    rw [flatMap_congr_mem hnil]
    simp
  · have h1 : lookupComp comps i = none :=
      Option.not_isSome_iff_eq_none.mp hpres
    have h2 : lookupComp (route_everything routes comps) i = none := by
      refine Option.not_isSome_iff_eq_none.mp ?_
      intro hs
      exact hpres
        ((isSome_lookup_of_ids_eq (foldSrc_ids routes (srcList routes) comps) i).mp hs)
    rw [inboxOf, inboxOf, h1, h2]

/-- C1: in Phase 1 (`route_everything`), every message drained from a
source appearing in the routing table produces exactly one delivered copy
per route matching its channel, appended to the destination inboxes in
index order; each delivered copy carries the route's `dest-channel` and the
original's signal and timestamp; every table source's outbox is fully
drained, so a drained message with no matching route is silently dropped
(it contributes no deliveries). -/
theorem claim_C1_phase1_fanout (routes : List Route) (comps : Registry) :
    (∀ i, (lookupComp comps i).isSome →
        inboxOf (route_everything routes comps) i
          = inboxOf comps i ++ deliveredSpec routes comps i)
    ∧ (∀ j, (∃ r ∈ routes, r.src = j) →
        outboxOf (route_everything routes comps) j = [])
    ∧ (∀ i m, m ∈ deliveredSpec routes comps i →
        ∃ r ∈ routes, r.dest = i ∧
          ∃ orig ∈ outboxOf comps r.src, orig.channel = r.srcChannel ∧
            m = { channel := r.destChannel, signal := orig.signal,
                  timestamp := orig.timestamp })
    ∧ (∀ s m, fanoutFor routes s m.channel = [] →
        ∀ i, matchingDeliveries routes s m i = []) := by
  refine ⟨?_, ?_, ?_, ?_⟩
  · intro i hpres
    exact foldSrc_inboxOf routes (srcList routes) comps i
      (nodup_dedupFirst _) hpres
  · intro j hj
    rw [route_everything, foldSrc_outboxOf, if_pos (mem_srcList.mpr hj)]
  · intro i m hm
    rcases List.mem_flatMap.mp hm with ⟨s, _, hm2⟩
    rcases List.mem_flatMap.mp hm2 with ⟨orig, horig, hm3⟩
    rcases List.mem_map.mp hm3 with ⟨p, hp, hrw⟩
    rcases List.mem_filter.mp hp with ⟨hpf, hpd⟩
    rcases List.mem_filterMap.mp hpf with ⟨r, hr, hro⟩
    by_cases hcond : r.src = s ∧ r.srcChannel = orig.channel
    · rw [if_pos hcond] at hro
      cases hro
      refine ⟨r, hr, by simpa using hpd, orig, ?_, hcond.2.symm, ?_⟩
      · rw [hcond.1]
        exact horig
      · rw [← hrw]
        rfl
    · rw [if_neg hcond] at hro
      cases hro
  · intro s m hfan i
    rw [matchingDeliveries, hfan]
    rfl

/-- Witness for C1 at a concrete one-route system. -/
theorem claim_C1_phase1_fanout_witness :
    inboxOf
        (route_everything [⟨"p", "a", "c", "in", false⟩]
          [⟨"p", [], [⟨"a", "sig", "t"⟩], false, ""⟩,
           ⟨"c", [], [], false, ""⟩]) "c"
      = inboxOf
          [⟨"p", [], [⟨"a", "sig", "t"⟩], false, ""⟩,
           ⟨"c", [], [], false, ""⟩] "c"
        ++ deliveredSpec [⟨"p", "a", "c", "in", false⟩]
            [⟨"p", [], [⟨"a", "sig", "t"⟩], false, ""⟩,
             ⟨"c", [], [], false, ""⟩] "c"
    ∧ outboxOf
        (route_everything [⟨"p", "a", "c", "in", false⟩]
          [⟨"p", [], [⟨"a", "sig", "t"⟩], false, ""⟩,
           ⟨"c", [], [], false, ""⟩]) "p" = [] :=
  ⟨(claim_C1_phase1_fanout _ _).1 "c" (by decide),
   (claim_C1_phase1_fanout _ _).2.1 "p"
     ⟨⟨"p", "a", "c", "in", false⟩, by decide, rfl⟩⟩

/-- C8 as stated is false: a component that is the `src` of no route can
still be the `dest` of one, and then Phase 1 changes its inbox.  Concrete
refutation: `c` is not the source of any route, yet its inbox grows. -/
theorem claim_C8_counterexample :
    (∀ r ∈ ([⟨"p", "a", "c", "in", false⟩] : List Route), r.src ≠ "c")
    ∧ inboxOf
        (route_everything [⟨"p", "a", "c", "in", false⟩]
          [⟨"p", [], [⟨"a", "sig", "t"⟩], false, ""⟩,
           ⟨"c", [], [], false, ""⟩]) "c"
      ≠ inboxOf
          [⟨"p", [], [⟨"a", "sig", "t"⟩], false, ""⟩,
           ⟨"c", [], [], false, ""⟩] "c" := by
  decide

/-- C8 (amended): `route_everything` drains only components that appear as
the source of a route: a component that is not the `src` of any route keeps
its outbox unchanged (pending outbox messages are neither delivered nor
dropped and persist across cycles); its inbox is additionally unchanged
provided it is also not the `dest` of any route — the inbox of a pure
destination can grow during Phase 1. -/
theorem claim_C8_amended (routes : List Route) (comps : Registry)
    (i : String) (hsrc : ∀ r ∈ routes, r.src ≠ i) :
    outboxOf (route_everything routes comps) i = outboxOf comps i
    ∧ ((∀ r ∈ routes, r.dest ≠ i) →
        inboxOf (route_everything routes comps) i = inboxOf comps i) := by
  constructor
  · rw [route_everything, foldSrc_outboxOf, if_neg]
    intro hmem
    rcases mem_srcList.mp hmem with ⟨r, hr, he⟩
    exact hsrc r hr he
  · intro hdest
    exact route_everything_inbox_unchanged routes comps i hdest

/-- Witness for the amended C8 at a concrete input: `c` is not a source,
its outbox survives Phase 1; `x` is neither source nor destination, both
its mailboxes survive. -/
theorem claim_C8_amended_witness :
    outboxOf
        (route_everything [⟨"p", "a", "c", "in", false⟩]
          [⟨"p", [], [⟨"a", "sig", "t"⟩], false, ""⟩,
           ⟨"c", [], [⟨"z", "w", "u"⟩], false, ""⟩,
           ⟨"x", [⟨"q", "v", "u2"⟩], [⟨"z2", "w2", "u3"⟩], false, ""⟩]) "c"
      = outboxOf
          [⟨"p", [], [⟨"a", "sig", "t"⟩], false, ""⟩,
           ⟨"c", [], [⟨"z", "w", "u"⟩], false, ""⟩,
           ⟨"x", [⟨"q", "v", "u2"⟩], [⟨"z2", "w2", "u3"⟩], false, ""⟩] "c"
    ∧ inboxOf
        (route_everything [⟨"p", "a", "c", "in", false⟩]
          [⟨"p", [], [⟨"a", "sig", "t"⟩], false, ""⟩,
           ⟨"c", [], [⟨"z", "w", "u"⟩], false, ""⟩,
           ⟨"x", [⟨"q", "v", "u2"⟩], [⟨"z2", "w2", "u3"⟩], false, ""⟩]) "x"
      = inboxOf
          [⟨"p", [], [⟨"a", "sig", "t"⟩], false, ""⟩,
           ⟨"c", [], [⟨"z", "w", "u"⟩], false, ""⟩,
           ⟨"x", [⟨"q", "v", "u2"⟩], [⟨"z2", "w2", "u3"⟩], false, ""⟩] "x" :=
  ⟨(claim_C8_amended _ _ "c" (by decide)).1,
   (claim_C8_amended _ _ "x" (by decide)).2 (by decide)⟩

theorem lookupComp_map (g : Component → Component)
    (hg : ∀ c, (g c).id = c.id) (comps : Registry) (i : String) :
    lookupComp (comps.map g) i = (lookupComp comps i).map g := by
  induction comps with
  | nil => rfl
  | cons c rest ih =>
    unfold lookupComp at ih ⊢
    simp only [List.map_cons]
    by_cases hi : c.id = i
    · rw [List.find?_cons_of_pos _ (by simp [hg, hi]),
        List.find?_cons_of_pos _ (by simp [hi])]
      rfl
    · rw [List.find?_cons_of_neg _ (by simp [hg, hi]),
        List.find?_cons_of_neg _ (by simp [hi]), ih]

theorem lookupComp_id (comps : Registry) (i : String) (c : Component)
    (h : lookupComp comps i = some c) : c.id = i := by
  have := List.find?_some h
  simpa using this

theorem activateComp_id
    (acts : String → Option Message → Component → Component)
    (hids : ∀ j om c, (acts j om c).id = c.id) (c : Component) :
    (activateComp acts c).1.id = c.id := by
  unfold activateComp
  cases c.inbox with
  | cons m rest => exact hids _ _ _
  | nil =>
    by_cases h : c.always_active
    · rw [if_pos h]
      exact hids _ _ _
    · rw [if_neg h]

theorem activateComp_rec
    (acts : String → Option Message → Component → Component)
    (c : Component) : (activateComp acts c).2 = turnRecord c := by
  unfold activateComp turnRecord
  cases c.inbox with
  | cons m rest => rfl
  | nil =>
    by_cases h : c.always_active
    · rw [if_pos h, if_pos h]
    · rw [if_neg h, if_neg h]

theorem phase2_ids (acts : String → Option Message → Component → Component)
    (hids : ∀ j om c, (acts j om c).id = c.id) (comps : Registry) :
    ((activate_one_turn_per_component acts comps).1).map (·.id)
      = comps.map (·.id) := by
  unfold activate_one_turn_per_component
  rw [List.map_map]
  exact List.map_congr_left (fun c _ => activateComp_id acts hids c)

theorem inboxOf_some {comps : Registry} {i : String} {c : Component}
    (h : lookupComp comps i = some c) : inboxOf comps i = c.inbox := by
  unfold inboxOf
  rw [h]

theorem inboxOf_none {comps : Registry} {i : String}
    (h : lookupComp comps i = none) : inboxOf comps i = [] := by
  unfold inboxOf
  rw [h]

theorem activateComp_inbox
    (acts : String → Option Message → Component → Component) (x : String)
    (hx : ∀ om c, (acts x om c).inbox = c.inbox) (c : Component)
    (hcx : c.id = x) :
    (activateComp acts c).1.inbox = c.inbox.tail := by
  obtain ⟨cid, cin, cout, caa, cst⟩ := c
  simp only [] at hcx
  subst hcx
  cases cin with
  | cons m rest =>
    simp only [activateComp]
    rw [hx]
    rfl
  | nil =>
    simp only [activateComp]
    by_cases h : caa = true
    · rw [if_pos h]
      simp only []
      rw [hx]
      rfl
    · rw [if_neg h]
      rfl

theorem phase2_inboxOf (acts : String → Option Message → Component → Component)
    (comps : Registry) (x : String)
    (hids : ∀ j om c, (acts j om c).id = c.id)
    (hx : ∀ om c, (acts x om c).inbox = c.inbox) :
    inboxOf ((activate_one_turn_per_component acts comps).1) x
      = (inboxOf comps x).tail := by
  cases hc : lookupComp comps x with
  | none =>
    have h2 : lookupComp ((activate_one_turn_per_component acts comps).1) x
        = none := by
      show lookupComp (comps.map _) x = none
      rw [lookupComp_map _ (activateComp_id acts hids), hc]
      rfl
    rw [inboxOf_none h2, inboxOf_none hc]
    rfl
  | some c =>
    have h2 : lookupComp ((activate_one_turn_per_component acts comps).1) x
        = some ((activateComp acts c).1) := by
      show lookupComp (comps.map _) x = _
      rw [lookupComp_map _ (activateComp_id acts hids), hc]
      rfl
    rw [inboxOf_some h2, inboxOf_some hc,
      activateComp_inbox acts x hx c (lookupComp_id comps x c hc)]

theorem run_cycle_ids (routes : List Route)
    (acts : String → Option Message → Component → Component)
    (hids : ∀ j om c, (acts j om c).id = c.id) (comps : Registry) :
    (run_cycle routes acts comps).map (·.id) = comps.map (·.id) := by
  rw [run_cycle, phase2_ids acts hids, route_everything, foldSrc_ids]

theorem run_cycle_inbox_tail (routes : List Route)
    (acts : String → Option Message → Component → Component)
    (comps : Registry) (x : String)
    (hids : ∀ j om c, (acts j om c).id = c.id)
    (hx : ∀ om c, (acts x om c).inbox = c.inbox)
    (hdest : ∀ r ∈ routes, r.dest ≠ x) :
    inboxOf (run_cycle routes acts comps) x = (inboxOf comps x).tail := by
  rw [run_cycle, phase2_inboxOf acts _ x hids hx,
    route_everything_inbox_unchanged routes comps x hdest]

theorem count_trace_le (comps : Registry) (x : String) :
    ((comps.filterMap turnRecord).map Prod.fst).count x
      ≤ (comps.map (·.id)).count x := by
  induction comps with
  | nil => simp
  | cons c rest ih =>
    rw [List.filterMap_cons, List.map_cons]
    cases hr : turnRecord c with
    | none =>
      refine le_trans ih ?_
      rw [List.count_cons]
      omega
    | some rec =>
      have hfst : rec.1 = c.id := by
        unfold turnRecord at hr
        cases hin : c.inbox with
        | cons m rest2 =>
          rw [hin] at hr
          cases hr
          rfl
        | nil =>
          rw [hin] at hr
          by_cases h : c.always_active
          · rw [if_pos h] at hr
            cases hr
            rfl
          · rw [if_neg h] at hr
            cases hr
      rw [List.map_cons, List.count_cons, List.count_cons, hfst]
      by_cases he : c.id = x <;> simp [he] <;> omega

/-- C4: Phase 2 (`activate_one_turn_per_component`) visits the components
in registry insertion order and gives each at most one activation per
cycle: the trace of one pass records, per component in order, the popped
oldest inbox message when the inbox is non-empty, a null-message
activation when `always_active`, and nothing otherwise; under distinct
registry ids no component is activated twice in a pass; and a component
with `n` pending inbox messages that receives no further deliveries
(no route targets it and its activation leaves its inbox alone) needs
exactly `n` cycles to drain. -/
theorem claim_C4_phase2_round_robin
    (acts : String → Option Message → Component → Component)
    (comps : Registry) :
    (activate_one_turn_per_component acts comps).2
      = comps.filterMap turnRecord
    ∧ ((comps.map (·.id)).Nodup → ∀ x : String,
        (((activate_one_turn_per_component acts comps).2).map Prod.fst).count x
          ≤ 1)
    ∧ (∀ (routes : List Route) (x : String) (n : Nat),
        (∀ j om c, (acts j om c).id = c.id) →
        (∀ om c, (acts x om c).inbox = c.inbox) →
        (∀ r ∈ routes, r.dest ≠ x) →
        (inboxOf comps x).length = n →
        (∀ k, (inboxOf (cyclesFrom routes acts k comps) x).length
            = n - min k n)
        ∧ inboxOf (cyclesFrom routes acts n comps) x = []
        ∧ (∀ k, k < n → inboxOf (cyclesFrom routes acts k comps) x ≠ [])) := by
  have htrace : (activate_one_turn_per_component acts comps).2
      = comps.filterMap turnRecord := by
    unfold activate_one_turn_per_component
    exact List.filterMap_congr (fun c _ => activateComp_rec acts c)
  refine ⟨htrace, ?_, ?_⟩
  · intro hnodup x
    rw [htrace]
    refine le_trans (count_trace_le comps x) ?_
    exact (List.nodup_iff_count_le_one.mp hnodup) x
  · intro routes x n hids hx hdest hlen
    have hstep : ∀ k, ∀ cs : Registry, ∀ m : Nat,
        (inboxOf cs x).length = m →
        (inboxOf (cyclesFrom routes acts k cs) x).length = m - min k m := by
      intro k
      induction k with
      | zero => intro cs m hm; simpa using hm
      | succ k ih =>
        intro cs m hm
        rw [cyclesFrom]
        have h1 : inboxOf (run_cycle routes acts cs) x
            = (inboxOf cs x).tail :=
          run_cycle_inbox_tail routes acts cs x hids hx hdest
        have h2 : (inboxOf (run_cycle routes acts cs) x).length = m - 1 := by
          rw [h1, List.length_tail, hm]
        rw [ih _ _ h2]
        omega
    have hk : ∀ k, (inboxOf (cyclesFrom routes acts k comps) x).length
        = n - min k n := fun k => hstep k comps n hlen
    refine ⟨hk, ?_, ?_⟩
    · have := hk n
      simpa using List.length_eq_zero.mp (by rw [this]; omega)
    · intro k hkn
      intro hnil
      have := hk k
      rw [hnil] at this
      simp at this
      omega

/-- Witness for C4: identity activations, a single component with two
pending messages and an empty routing table — the trace rule holds and the
inbox drains in exactly two cycles. -/
theorem claim_C4_phase2_round_robin_witness :
    (activate_one_turn_per_component (fun _ _ c => c)
        [⟨"a", [⟨"x", "s1", "t1"⟩, ⟨"y", "s2", "t2"⟩], [], false, ""⟩]).2
      = List.filterMap turnRecord
          [⟨"a", [⟨"x", "s1", "t1"⟩, ⟨"y", "s2", "t2"⟩], [], false, ""⟩]
    ∧ inboxOf
        (cyclesFrom [] (fun _ _ c => c) 2
          [⟨"a", [⟨"x", "s1", "t1"⟩, ⟨"y", "s2", "t2"⟩], [], false, ""⟩]) "a"
      = []
    ∧ inboxOf
        (cyclesFrom [] (fun _ _ c => c) 1
          [⟨"a", [⟨"x", "s1", "t1"⟩, ⟨"y", "s2", "t2"⟩], [], false, ""⟩]) "a"
      ≠ [] :=
  ⟨(claim_C4_phase2_round_robin (fun _ _ c => c) _).1,
   ((claim_C4_phase2_round_robin (fun _ _ c => c) _).2.2 [] "a" 2
      (fun _ _ _ => rfl) (fun _ _ => rfl) (by simp) (by decide)).2.1,
   ((claim_C4_phase2_round_robin (fun _ _ c => c) _).2.2 [] "a" 2
      (fun _ _ _ => rfl) (fun _ _ => rfl) (by simp) (by decide)).2.2 1
     (by decide)⟩

theorem cyclesFrom_eq_iterate (routes : List Route)
    (acts : String → Option Message → Component → Component) (n : Nat)
    (comps : Registry) :
    cyclesFrom routes acts n comps = (run_cycle routes acts)^[n] comps := by
  induction n generalizing comps with
  | zero => rfl
  | succ n ih =>
    rw [cyclesFrom, ih, Function.iterate_succ_apply]

theorem runQAux_spec (routes : List Route)
    (acts : String → Option Message → Component → Component) :
    ∀ (fuel : Nat) (comps st : Registry) (k : Nat),
      runQAux routes acts fuel comps = some (st, k) →
      st = (run_cycle routes acts)^[k] comps ∧ is_quiescent st
      ∧ ∀ j, j < k → ¬ is_quiescent ((run_cycle routes acts)^[j] comps) := by
  intro fuel
  induction fuel with
  | zero =>
    intro comps st k h
    rw [runQAux] at h
    by_cases hq : is_quiescent comps
    · rw [if_pos hq] at h
      cases h
      exact ⟨rfl, hq, fun j hj => absurd hj (by omega)⟩
    · rw [if_neg hq] at h
      cases h
  | succ fuel ih =>
    intro comps st k h
    rw [runQAux] at h
    by_cases hq : is_quiescent comps
    · rw [if_pos hq] at h
      cases h
      exact ⟨rfl, hq, fun j hj => absurd hj (by omega)⟩
    · rw [if_neg hq] at h
      cases hrec : runQAux routes acts fuel (run_cycle routes acts comps) with
      | none => rw [hrec] at h; cases h
      | some p =>
        rw [hrec] at h
        cases h
        obtain ⟨h1, h2, h3⟩ := ih (run_cycle routes acts comps) p.1 p.2 (by
          rw [hrec])
        refine ⟨?_, h2, ?_⟩
        · rw [h1, Function.iterate_succ_apply]
        · intro j hj
          cases j with
          | zero => simpa using hq
          | succ j =>
            rw [Function.iterate_succ_apply]
            exact h3 j (by omega)

/-- C5: `run(n)` with `n > 0` executes exactly `n` cycles (each cycle being
`route_everything` then `activate_one_turn_per_component`); `run(0)`
executes at least one cycle and keeps cycling exactly until
`is_quiescent()` holds; and `is_quiescent()` is true exactly when every
registered component's inbox and outbox are empty. -/
theorem claim_C5_run_semantics (routes : List Route)
    (acts : String → Option Message → Component → Component) (fuel : Nat)
    (comps : Registry) :
    (∀ c : Int, 0 < c →
        run routes acts c fuel comps
          = some ((run_cycle routes acts)^[c.toNat] comps, c.toNat))
    ∧ (∀ st k, run routes acts 0 fuel comps = some (st, k) →
        1 ≤ k ∧ st = (run_cycle routes acts)^[k] comps
        ∧ is_quiescent st
        ∧ ∀ j, 1 ≤ j → j < k →
            ¬ is_quiescent ((run_cycle routes acts)^[j] comps))
    ∧ (is_quiescent comps = true ↔
        ∀ c ∈ comps, c.inbox = [] ∧ c.outbox = []) := by
  refine ⟨?_, ?_, ?_⟩
  · intro c hc
    rw [run, if_pos hc, cyclesFrom_eq_iterate]
  · intro st k h
    rw [run, if_neg (by omega)] at h
    cases hrec : runQAux routes acts fuel (run_cycle routes acts comps) with
    | none => rw [hrec] at h; cases h
    | some p =>
      rw [hrec] at h
      cases h
      obtain ⟨h1, h2, h3⟩ :=
        runQAux_spec routes acts fuel (run_cycle routes acts comps) p.1 p.2
          (by rw [hrec])
      refine ⟨by omega, ?_, h2, ?_⟩
      · rw [h1, Function.iterate_succ_apply]
      · intro j hj1 hj2
        cases j with
        | zero => omega
        | succ j =>
          rw [Function.iterate_succ_apply]
          exact h3 j (by omega)
  · rw [is_quiescent, List.all_eq_true]
    constructor
    · intro h c hc
      have := h c hc
      simp only [Bool.and_eq_true, List.isEmpty_iff] at this
      exact this
    · intro h c hc
      simp only [Bool.and_eq_true, List.isEmpty_iff]
      exact h c hc

/-- Witness for C5: a quiescent one-component system with identity
activations — `run 2` executes exactly two cycles, `run 0` executes one
cycle and stops quiescent. -/
theorem claim_C5_run_semantics_witness :
    run [] (fun _ _ c => c) 2 5 [⟨"a", [], [], false, ""⟩]
      = some ((run_cycle [] (fun _ _ c => c))^[2]
          [⟨"a", [], [], false, ""⟩], 2)
    ∧ (1 ≤ 1
       ∧ [⟨"a", [], [], false, ""⟩]
           = (run_cycle [] (fun _ _ c => c))^[1] [⟨"a", [], [], false, ""⟩]
       ∧ is_quiescent [⟨"a", [], [], false, ""⟩]
       ∧ ∀ j, 1 ≤ j → j < 1 →
           ¬ is_quiescent ((run_cycle [] (fun _ _ c => c))^[j]
               [⟨"a", [], [], false, ""⟩])) :=
  ⟨(claim_C5_run_semantics [] (fun _ _ c => c) 5 _).1 2 (by decide),
   (claim_C5_run_semantics [] (fun _ _ c => c) 5 _).2.1
     [⟨"a", [], [], false, ""⟩] 1 (by decide)⟩

/-- C10: for every `cycles < 0`, `run(cycles)` takes the
run-until-quiescent branch — it behaves identically to `run(0)`, running at
least one cycle and stopping quiescent — rather than running zero
cycles. -/
theorem claim_C10_run_negative (routes : List Route)
    (acts : String → Option Message → Component → Component) (c : Int)
    (hc : c < 0) (fuel : Nat) (comps : Registry) :
    run routes acts c fuel comps = run routes acts 0 fuel comps
    ∧ (∀ st k, run routes acts c fuel comps = some (st, k) →
        1 ≤ k ∧ is_quiescent st) := by
  have heq : run routes acts c fuel comps = run routes acts 0 fuel comps := by
    rw [run, run, if_neg (by omega), if_neg (by omega)]
  refine ⟨heq, ?_⟩
  intro st k h
  rw [heq, run, if_neg (by omega)] at h
  cases hrec : runQAux routes acts fuel (run_cycle routes acts comps) with
  | none => rw [hrec] at h; cases h
  | some p =>
    rw [hrec] at h
    cases h
    obtain ⟨_, h2, _⟩ :=
      runQAux_spec routes acts fuel (run_cycle routes acts comps) p.1 p.2
        (by rw [hrec])
    exact ⟨by omega, h2⟩

/-- Witness for C10 at `cycles = -3` on a concrete quiescent system. -/
theorem claim_C10_run_negative_witness :
    run [] (fun _ _ c => c) (-3) 5 [⟨"a", [], [], false, ""⟩]
      = run [] (fun _ _ c => c) 0 5 [⟨"a", [], [], false, ""⟩]
    ∧ (1 ≤ 1 ∧ is_quiescent [⟨"a", [], [], false, ""⟩]) :=
  ⟨(claim_C10_run_negative [] (fun _ _ c => c) (-3) (by decide) 5
      [⟨"a", [], [], false, ""⟩]).1,
   (claim_C10_run_negative [] (fun _ _ c => c) (-3) (by decide) 5
      [⟨"a", [], [], false, ""⟩]).2 [⟨"a", [], [], false, ""⟩] 1 (by decide)⟩

end IntraFlow

namespace Patchboard

theorem applyOp_foldl (tbl : List FsRoute) (op : Op) :
    ((applyOp tbl op).2).foldl replayStep tbl = (applyOp tbl op).1 := by
  cases op with
  | add r =>
    by_cases h : r ∈ tbl
    · simp [applyOp, add_route, h]
    · simp [applyOp, add_route, h, replayStep]
  | remove r =>
    by_cases h : r ∈ tbl
    · simp [applyOp, remove_route, h, replayStep]
    · simp [applyOp, remove_route, h]

theorem runOps_foldl (ops : List Op) (tbl : List FsRoute) :
    ((runOps tbl ops).2).foldl replayStep tbl = (runOps tbl ops).1 := by
  induction ops generalizing tbl with
  | nil => rfl
  | cons op ops ih =>
    simp only [runOps, List.foldl_append, applyOp_foldl]
    exact ih _

/-- C3: replaying the `events.jsonl` lines produced by `add_route` /
`remove_route` in file order onto the table the log encodes reproduces the
live table the router held immediately after appending the last event
(`replay [] = []` gives the from-empty case); during replay, blank and
unparseable lines (including a truncated last line) are skipped, unknown
event types (`startup`, `shutdown`, anything else) are skipped,
`route_added` of a structurally present route is ignored, and
`route_removed` of an absent route is ignored. -/
theorem claim_C3_replay_rebuilds_table (L : List LogLine) (ops : List Op)
    (tbl : List FsRoute) (h : replay L = tbl) :
    replay (L ++ (runOps tbl ops).2) = (runOps tbl ops).1
    ∧ (∀ (t : List FsRoute) (tag : String) (r : FsRoute),
        replayStep t .junk = t ∧ replayStep t .blank = t
        ∧ replayStep t (.other tag) = t
        ∧ (r ∈ t → replayStep t (.routeAdded r) = t)
        ∧ (r ∉ t → replayStep t (.routeRemoved r) = t)) := by
  constructor
  · rw [replay, List.foldl_append]
    show (runOps tbl ops).2.foldl replayStep (replay L) = _
    rw [h, runOps_foldl]
  · intro t tag r
    refine ⟨rfl, rfl, rfl, ?_, ?_⟩
    · intro hr
      simp [replayStep, hr]
    · intro hr
      simp [replayStep, hr]

/-- Witness for C3: a concrete session — add a route twice, remove it,
re-add it — replayed from the empty log. -/
theorem claim_C3_replay_rebuilds_table_witness :
    replay ([] ++
        (runOps []
          [Op.add ⟨"/s", "a", "b", "/d"⟩, Op.add ⟨"/s", "a", "b", "/d"⟩,
           Op.remove ⟨"/s", "a", "b", "/d"⟩,
           Op.add ⟨"/s", "a", "b", "/d"⟩]).2)
      = (runOps []
          [Op.add ⟨"/s", "a", "b", "/d"⟩, Op.add ⟨"/s", "a", "b", "/d"⟩,
           Op.remove ⟨"/s", "a", "b", "/d"⟩,
           Op.add ⟨"/s", "a", "b", "/d"⟩]).1
    ∧ replayStep [⟨"/s", "a", "b", "/d"⟩]
        (.routeAdded ⟨"/s", "a", "b", "/d"⟩) = [⟨"/s", "a", "b", "/d"⟩] :=
  ⟨(claim_C3_replay_rebuilds_table [] _ [] rfl).1,
   ((claim_C3_replay_rebuilds_table [] [] [] rfl).2
      [⟨"/s", "a", "b", "/d"⟩] "startup" ⟨"/s", "a", "b", "/d"⟩).2.2.2.1
     (by decide)⟩

theorem replayStep_nodup (tbl : List FsRoute) (l : LogLine)
    (h : tbl.Nodup) : (replayStep tbl l).Nodup := by
  cases l with
  | junk => exact h
  | blank => exact h
  | other tag => exact h
  | routeAdded r =>
    by_cases hr : r ∈ tbl
    · simpa [replayStep, hr] using h
    · simp only [replayStep, if_neg hr]
      simp [List.nodup_append, h, hr]
  | routeRemoved r =>
    by_cases hr : r ∈ tbl
    · simp only [replayStep, if_pos hr]
      exact h.erase r
    · simpa [replayStep, hr] using h

theorem foldl_replayStep_nodup (L : List LogLine) (tbl : List FsRoute)
    (h : tbl.Nodup) : (L.foldl replayStep tbl).Nodup := by
  induction L generalizing tbl with
  | nil => exact h
  | cons l L ih => exact ih _ (replayStep_nodup tbl l h)

theorem replay_nodup (L : List LogLine) : (replay L).Nodup :=
  foldl_replayStep_nodup L [] List.nodup_nil

theorem applyOp_nodup (tbl : List FsRoute) (op : Op) (h : tbl.Nodup) :
    ((applyOp tbl op).1).Nodup := by
  cases op with
  | add r =>
    by_cases hr : r ∈ tbl
    · simpa [applyOp, add_route, hr] using h
    · simp only [applyOp, add_route, if_neg hr]
      simp [List.nodup_append, h, hr]
  | remove r =>
    by_cases hr : r ∈ tbl
    · simp only [applyOp, remove_route, if_pos hr]
      exact h.erase r
    · simpa [applyOp, remove_route, hr] using h

theorem runOps_nodup (ops : List Op) (tbl : List FsRoute) (h : tbl.Nodup) :
    ((runOps tbl ops).1).Nodup := by
  induction ops generalizing tbl with
  | nil => exact h
  | cons op ops ih =>
    simp only [runOps]
    exact ih _ (applyOp_nodup tbl op h)

/-- C9: the router's routing table never holds two structurally equal
routes: starting from any replayed log, every sequence of
`add_route`/`remove_route` calls keeps the table duplicate-free;
`add_route` returns `False` and appends no event when the route is already
present, `remove_route` returns `False` and appends no event when it is
absent, and an event is appended iff the table actually changed. -/
theorem claim_C9_table_nodup_event_iff :
    (∀ (L : List LogLine) (ops : List Op), ((runOps (replay L) ops).1).Nodup)
    ∧ (∀ (tbl : List FsRoute) (r : FsRoute), r ∈ tbl →
        add_route tbl r = (false, tbl, []))
    ∧ (∀ (tbl : List FsRoute) (r : FsRoute), r ∉ tbl →
        remove_route tbl r = (false, tbl, []))
    ∧ (∀ (tbl : List FsRoute) (op : Op),
        (applyOp tbl op).2 ≠ [] ↔ (applyOp tbl op).1 ≠ tbl) := by
  refine ⟨?_, ?_, ?_, ?_⟩
  · intro L ops
    exact runOps_nodup ops (replay L) (replay_nodup L)
  · intro tbl r hr
    simp [add_route, hr]
  · intro tbl r hr
    simp [remove_route, hr]
  · intro tbl op
    cases op with
    | add r =>
      by_cases hr : r ∈ tbl
      · simp [applyOp, add_route, hr]
      · simp only [applyOp, add_route, if_neg hr]
        constructor
        · intro _ he
          have : tbl.length + 1 = tbl.length := by
            conv_rhs => rw [← he]
            simp
          omega
        · intro _
          simp
    | remove r =>
      by_cases hr : r ∈ tbl
      · simp only [applyOp, remove_route, if_pos hr]
        constructor
        · intro _ he
          have hlen := List.length_erase_of_mem hr
          rw [he] at hlen
          have : 0 < tbl.length := List.length_pos.mpr
            (List.ne_nil_of_mem hr)
          omega
        · intro _
          simp
      · simp [applyOp, remove_route, hr]

/-- Witness for C9 on a concrete table: duplicate add is rejected, absent
remove is rejected, a real add appends an event. -/
theorem claim_C9_table_nodup_event_iff_witness :
    ((runOps (replay [LogLine.routeAdded ⟨"/s", "a", "b", "/d"⟩])
        [Op.add ⟨"/s", "a", "b", "/d"⟩]).1).Nodup
    ∧ add_route [⟨"/s", "a", "b", "/d"⟩] ⟨"/s", "a", "b", "/d"⟩
        = (false, [⟨"/s", "a", "b", "/d"⟩], [])
    ∧ remove_route [] ⟨"/s", "a", "b", "/d"⟩ = (false, [], []) :=
  ⟨claim_C9_table_nodup_event_iff.1 [LogLine.routeAdded ⟨"/s", "a", "b", "/d"⟩]
     [Op.add ⟨"/s", "a", "b", "/d"⟩],
   claim_C9_table_nodup_event_iff.2.1 [⟨"/s", "a", "b", "/d"⟩]
     ⟨"/s", "a", "b", "/d"⟩ (by decide),
   claim_C9_table_nodup_event_iff.2.2.1 [] ⟨"/s", "a", "b", "/d"⟩
     (by decide)⟩

end Patchboard

namespace IntraFlowWire

/-- C7: in the wiring DSL, `address_source(x)` resets the persist flag and
empties the staged channel-link buffer (leaving the destination address
alone), `address_dest(x)` changes neither the persist flag, the link
buffer, nor the source; and after a successful `commit_links()` the
channel-link buffer is empty and the persist flag is false while the
source and destination addressing are unchanged. -/
theorem claim_C7_wiring_frame (w : Wire) (x : WAddr)
    (reg : String → Option Nat) :
    ((address_source w x).persist = false
      ∧ (address_source w x).links = []
      ∧ (address_source w x).dest = w.dest)
    ∧ ((address_dest w x).src = w.src
      ∧ (address_dest w x).persist = w.persist
      ∧ (address_dest w x).links = w.links)
    ∧ (∀ (w' : Wire) (rs : List WRoute),
        commit_links reg w = .ok (w', rs) →
        w'.links = [] ∧ w'.persist = false
        ∧ w'.src = w.src ∧ w'.dest = w.dest) := by
  refine ⟨⟨rfl, rfl, rfl⟩, ⟨rfl, rfl, rfl⟩, ?_⟩
  intro w' rs h
  unfold commit_links at h
  cases hs : w.src with
  | none => rw [hs] at h; cases h
  | some s =>
    rw [hs] at h
    cases hd : w.dest with
    | none => rw [hd] at h; cases h
    | some d =>
      rw [hd] at h
      dsimp only at h
      by_cases hl : w.links = []
      · rw [if_pos hl] at h
        cases h
      · rw [if_neg hl] at h
        cases hsr : resolveAddr reg s with
        | error e => rw [hsr] at h; cases h
        | ok sr =>
          rw [hsr] at h
          dsimp only [Bind.bind, Except.bind] at h
          cases hdr : resolveAddr reg d with
          | error e => rw [hdr] at h; cases h
          | ok dr =>
            rw [hdr] at h
            dsimp only [Bind.bind, Except.bind] at h
            cases hb : buildLinks reg sr dr w.persist w.links with
            | error e => rw [hb] at h; cases h
            | ok rs0 =>
              rw [hb] at h
              dsimp only [Bind.bind, Except.bind] at h
              cases h
              exact ⟨rfl, rfl, rfl, rfl⟩

/-- Witness for C7: a concrete successful commit of one persistent link
between two registered components. -/
theorem claim_C7_wiring_frame_witness :
    ∃ (w' : Wire) (rs : List WRoute),
      commit_links
          (fun i => if i = "s" then some 0
                    else if i = "d" then some 1 else none)
          { src := some (.byId "s"), dest := some (.byId "d"),
            persist := true, links := [("a", "b")] }
        = .ok (w', rs)
      ∧ w'.links = [] ∧ w'.persist = false
      ∧ w'.src = some (.byId "s") ∧ w'.dest = some (.byId "d") := by
  refine ⟨{ src := some (.byId "s"), dest := some (.byId "d"),
            persist := false, links := [] },
          [{ src_id := some "s", src := 0, srcChannel := "a",
             dest_id := some "d", dest := 1, destChannel := "b",
             persistent := true }], ?_, ?_⟩
  · rfl
  · exact (claim_C7_wiring_frame
      { src := some (.byId "s"), dest := some (.byId "d"),
        persist := true, links := [("a", "b")] } (.byId "s")
      (fun i => if i = "s" then some 0
                else if i = "d" then some 1 else none)).2.2 _ _ rfl

end IntraFlowWire

namespace Patchboard

theorem plan_deliveries_decomp (tbl : List FsRoute) (discard : Bool) :
    ∀ (entries : List (String × SrcFile)) (st : Stats),
      (plan_deliveries tbl discard entries st).1
          = entries.flatMap (fun e => fileCopies tbl e.1 e.2)
      ∧ (plan_deliveries tbl discard entries st).2.1
          = entries.flatMap (fun e => fileDeletes tbl discard e.1 e.2) := by
  intro entries
  induction entries with
  | nil => intro st; exact ⟨rfl, rfl⟩
  | cons e rest ih =>
    intro st
    obtain ⟨folder, f⟩ := e
    rw [plan_deliveries]
    cases hp : f.parsed with
    | none =>
      simp only [List.flatMap_cons, fileCopies, fileDeletes, hp,
        List.nil_append]
      exact ih _
    | some msg =>
      simp only []
      have hfc : fileCopies tbl folder f
          = (routes_for_source tbl folder msg.channel).map (fun dd =>
              { src := f.path, msg := msg, destFolder := dd.2,
                destChannel := dd.1 }) := by
        unfold fileCopies
        rw [hp]
      have hfd : fileDeletes tbl discard folder f
          = (if routes_for_source tbl folder msg.channel = [] then
               (if discard then [f.path] else [])
             else [f.path]) := by
        unfold fileDeletes
        rw [hp]
      by_cases hr : routes_for_source tbl folder msg.channel = []
      · rw [if_pos hr]
        by_cases hd : discard = true
        · rw [if_pos hd]
          constructor
          · rw [List.flatMap_cons, hfc, hr, List.map_nil, List.nil_append,
              (ih _).1]
          · rw [List.flatMap_cons, hfd, if_pos hr, if_pos hd, (ih _).2]
            rfl
        · rw [if_neg hd]
          constructor
          · rw [List.flatMap_cons, hfc, hr, List.map_nil, List.nil_append,
              (ih _).1]
          · rw [List.flatMap_cons, hfd, if_pos hr, if_neg hd,
              List.nil_append, (ih _).2]
      · rw [if_neg hr]
        constructor
        · rw [List.flatMap_cons, hfc, (ih _).1]
        · rw [List.flatMap_cons, hfd, if_neg hr, (ih _).2]
          rfl

theorem fileCopies_src (tbl : List FsRoute) (folder : String) (f : SrcFile)
    (c : CopyOp) (hc : c ∈ fileCopies tbl folder f) : c.src = f.path := by
  unfold fileCopies at hc
  cases hp : f.parsed with
  | none => rw [hp] at hc; cases hc
  | some msg =>
    rw [hp] at hc
    rcases List.mem_map.mp hc with ⟨dd, _, he⟩
    rw [← he]

theorem fileDeletes_path (tbl : List FsRoute) (discard : Bool)
    (folder : String) (f : SrcFile) (x : String)
    (hx : x ∈ fileDeletes tbl discard folder f) : x = f.path := by
  unfold fileDeletes at hx
  cases hp : f.parsed with
  | none => rw [hp] at hx; cases hx
  | some msg =>
    rw [hp] at hx
    dsimp only at hx
    by_cases hr : routes_for_source tbl folder msg.channel = []
    · rw [if_pos hr] at hx
      by_cases hd : discard = true
      · rw [if_pos hd] at hx
        simpa using hx
      · rw [if_neg hd] at hx
        cases hx
    · rw [if_neg hr] at hx
      simpa using hx

theorem copies_filter_src (tbl : List FsRoute)
    (entries : List (String × SrcFile))
    (hN : (entries.map (fun e => e.2.path)).Nodup)
    (folder : String) (f : SrcFile) (hmem : (folder, f) ∈ entries) :
    (entries.flatMap (fun e => fileCopies tbl e.1 e.2)).filter
        (fun c => c.src == f.path)
      = fileCopies tbl folder f := by
  induction entries with
  | nil => cases hmem
  | cons e rest ih =>
    rw [List.flatMap_cons, List.filter_append]
    rw [List.map_cons, List.nodup_cons] at hN
    by_cases hpath : e.2.path = f.path
    · have he : e = (folder, f) := by
        rcases List.mem_cons.mp hmem with h | h
        · exact h.symm
        · exfalso
          apply hN.1
          rw [hpath]
          exact List.mem_map.mpr ⟨(folder, f), h, rfl⟩
      subst he
      have h1 : (fileCopies tbl folder f).filter (fun c => c.src == f.path)
          = fileCopies tbl folder f := by
        rw [List.filter_eq_self]
        intro c hc
        simp [fileCopies_src tbl folder f c hc]
      have h2 : (rest.flatMap (fun e => fileCopies tbl e.1 e.2)).filter
          (fun c => c.src == f.path) = [] := by
        rw [List.filter_eq_nil_iff]
        intro c hc
        rcases List.mem_flatMap.mp hc with ⟨e', he', hce⟩
        have hsrc : c.src = e'.2.path := fileCopies_src tbl e'.1 e'.2 c hce
        intro hcsrc
        apply hN.1
        have hpp : e'.2.path = f.path := by
          rw [← hsrc]
          simpa using hcsrc
        rw [← hpp]
        exact List.mem_map.mpr ⟨e', he', rfl⟩
      rw [h1, h2, List.append_nil]
    · have hin : (folder, f) ∈ rest := by
        rcases List.mem_cons.mp hmem with h | h
        · exact absurd (congrArg (fun e => e.2.path) h.symm) hpath
        · exact h
      have h1 : (fileCopies tbl e.1 e.2).filter (fun c => c.src == f.path)
          = [] := by
        rw [List.filter_eq_nil_iff]
        intro c hc
        have hsrc : c.src = e.2.path := fileCopies_src tbl e.1 e.2 c hc
        simp [hsrc, hpath]
      rw [h1, List.nil_append]
      exact ih hN.2 hin

theorem deletes_mem_iff (tbl : List FsRoute) (discard : Bool)
    (entries : List (String × SrcFile))
    (hN : (entries.map (fun e => e.2.path)).Nodup)
    (folder : String) (f : SrcFile) (hmem : (folder, f) ∈ entries) :
    f.path ∈ entries.flatMap (fun e => fileDeletes tbl discard e.1 e.2)
      ↔ f.path ∈ fileDeletes tbl discard folder f := by
  induction entries with
  | nil => cases hmem
  | cons e rest ih =>
    rw [List.flatMap_cons, List.mem_append]
    rw [List.map_cons, List.nodup_cons] at hN
    by_cases hpath : e.2.path = f.path
    · have he : e = (folder, f) := by
        rcases List.mem_cons.mp hmem with h | h
        · exact h.symm
        · exfalso
          apply hN.1
          rw [hpath]
          exact List.mem_map.mpr ⟨(folder, f), h, rfl⟩
      subst he
      constructor
      · rintro (h | h)
        · exact h
        · exfalso
          rcases List.mem_flatMap.mp h with ⟨e', he', hfe⟩
          apply hN.1
          have hpp := fileDeletes_path tbl discard e'.1 e'.2 f.path hfe
          rw [hpp]
          exact List.mem_map.mpr ⟨e', he', rfl⟩
      · exact Or.inl
    · have hin : (folder, f) ∈ rest := by
        rcases List.mem_cons.mp hmem with h | h
        · exact absurd (congrArg (fun e => e.2.path) h.symm) hpath
        · exact h
      constructor
      · rintro (h | h)
        · exact absurd (fileDeletes_path tbl discard e.1 e.2 f.path h).symm
            hpath
        · exact (ih hN.2 hin).mp h
      · intro h
        exact Or.inr ((ih hN.2 hin).mpr h)

theorem length_filter_enum_snd {alpha : Type} (l : List alpha)
    (q : alpha → Bool) :
    (l.enum.filter (fun p => q p.2)).length = (l.filter q).length := by
  have h1 : (l.enum.map Prod.snd).filter q
      = (l.enum.filter (q ∘ Prod.snd)).map Prod.snd :=
    List.filter_map _ _
  calc (l.enum.filter (fun p => q p.2)).length
      = ((l.enum.filter (q ∘ Prod.snd)).map Prod.snd).length := by
        rw [List.length_map]
        rfl
    _ = ((l.enum.map Prod.snd).filter q).length := by rw [h1]
    _ = (l.filter q).length := by rw [List.enum_map_snd]

theorem mem_map_src_iff (copies : List CopyOp) (x : String) :
    x ∈ copies.map (·.src)
      ↔ copies.filter (fun c => c.src == x) ≠ [] := by
  rw [List.mem_map]
  constructor
  · rintro ⟨c, hc, he⟩ hnil
    have hm : c ∈ copies.filter (fun c => c.src == x) :=
      List.mem_filter.mpr ⟨hc, by simp [he]⟩
    rw [hnil] at hm
    cases hm
  · intro h
    rcases List.exists_mem_of_ne_nil _ h with ⟨c, hc⟩
    rcases List.mem_filter.mp hc with ⟨hc1, hc2⟩
    exact ⟨c, hc1, by simpa using hc2⟩

theorem count_map_src (copies : List CopyOp) (x : String) :
    (copies.map (·.src)).count x
      = (copies.filter (fun c => c.src == x)).length := by
  show List.countP (· == x) (copies.map (·.src)) = _
  rw [List.countP_map, List.countP_eq_length_filter]
  rfl

theorem count_execute_copies (dE : String → Bool) (wOk : Nat → Bool)
    (copies : List CopyOp) (x : String) :
    (execute_copies dE wOk copies).count x
      = ((copies.enum.filter (fun p => p.2.src == x)).filter
          (fun p => copySucceeds dE wOk p.1 p.2)).length := by
  show List.countP (· == x) _ = _
  rw [execute_copies, List.countP_map, List.countP_eq_length_filter,
    List.filter_filter, List.filter_filter]
  apply congrArg
  apply List.filter_congr
  intro p _
  show ((p.2.src == x) && copySucceeds dE wOk p.1 p.2)
      = (copySucceeds dE wOk p.1 p.2 && (p.2.src == x))
  rw [Bool.and_comm]

theorem mem_execute_copies (dE : String → Bool) (wOk : Nat → Bool)
    (copies : List CopyOp) (x : String) :
    x ∈ execute_copies dE wOk copies
      ↔ 0 < (execute_copies dE wOk copies).count x := by
  constructor
  · exact List.count_pos_iff.mpr
  · exact List.count_pos_iff.mp

theorem succ_le_planned (dE : String → Bool) (wOk : Nat → Bool)
    (copies : List CopyOp) (x : String) :
    ((copies.enum.filter (fun p => p.2.src == x)).filter
        (fun p => copySucceeds dE wOk p.1 p.2)).length
      ≤ (copies.enum.filter (fun p => p.2.src == x)).length :=
  List.length_filter_le _ _

theorem all_succeed_iff_counts (dE : String → Bool) (wOk : Nat → Bool)
    (copies : List CopyOp) (x : String) :
    (∀ p ∈ copies.enum, p.2.src = x →
        copySucceeds dE wOk p.1 p.2 = true)
      ↔ ((copies.enum.filter (fun p => p.2.src == x)).filter
            (fun p => copySucceeds dE wOk p.1 p.2)).length
          = (copies.enum.filter (fun p => p.2.src == x)).length := by
  constructor
  · intro h
    have : (copies.enum.filter (fun p => p.2.src == x)).filter
        (fun p => copySucceeds dE wOk p.1 p.2)
        = copies.enum.filter (fun p => p.2.src == x) := by
      rw [List.filter_eq_self]
      intro p hp
      rcases List.mem_filter.mp hp with ⟨hp1, hp2⟩
      exact h p hp1 (by simpa using hp2)
    rw [this]
  · intro h p hp hsrc
    by_contra hok
    have hmem : p ∈ copies.enum.filter (fun p => p.2.src == x) :=
      List.mem_filter.mpr ⟨hp, by simp [hsrc]⟩
    have hlt := List.length_filter_lt_length_iff_exists
      (l := copies.enum.filter (fun p => p.2.src == x))
      (p := fun p => copySucceeds dE wOk p.1 p.2)
    have : ((copies.enum.filter (fun p => p.2.src == x)).filter
        (fun p => copySucceeds dE wOk p.1 p.2)).length
        < (copies.enum.filter (fun p => p.2.src == x)).length :=
      hlt.mpr ⟨p, hmem, by simpa using hok⟩
    omega

/-- C2: in every router delivery pass, a scanned source message file is
deleted iff either (a) it was readable, matched no route and
`router.discard_unrouted` is enabled (so no copies were planned for it),
or (b) it was readable, matched at least one route, and every planned copy
for it succeeded; if any planned copy fails — including the skip for a
missing destination folder — the source file is not deleted and remains
for the next tick. -/
theorem claim_C2_delete_iff (tbl : List FsRoute) (discard : Bool)
    (dE : String → Bool) (wOk : Nat → Bool)
    (entries : List (String × SrcFile)) (st : Stats)
    (hN : (entries.map (fun e => e.2.path)).Nodup)
    (folder : String) (f : SrcFile) (hmem : (folder, f) ∈ entries) :
    f.path ∈ (delivery_pass tbl discard dE wOk entries st).2.2
      ↔ ∃ msg, f.parsed = some msg ∧
          ((routes_for_source tbl folder msg.channel = [] ∧ discard = true)
           ∨ (routes_for_source tbl folder msg.channel ≠ [] ∧
              ∀ p ∈ ((delivery_pass tbl discard dE wOk entries st).1).enum,
                p.2.src = f.path →
                copySucceeds dE wOk p.1 p.2 = true)) := by
  have hP := plan_deliveries_decomp tbl discard entries st
  have hdeliff : f.path ∈ (plan_deliveries tbl discard entries st).2.1
      ↔ f.path ∈ fileDeletes tbl discard folder f := by
    rw [hP.2]
    exact deletes_mem_iff tbl discard entries hN folder f hmem
  have hfilter : ((plan_deliveries tbl discard entries st).1).filter
      (fun c => c.src == f.path) = fileCopies tbl folder f := by
    rw [hP.1]
    exact copies_filter_src tbl entries hN folder f hmem
  have hLHS : f.path ∈ (delivery_pass tbl discard dE wOk entries st).2.2
      ↔ f.path ∈ (plan_deliveries tbl discard entries st).2.1
        ∧ (if f.path ∈ ((plan_deliveries tbl discard entries st).1).map
              (·.src) then
            decide (f.path ∈ execute_copies dE wOk
                (plan_deliveries tbl discard entries st).1
              ∧ (((plan_deliveries tbl discard entries st).1).map
                  (·.src)).count f.path
                ≤ (execute_copies dE wOk
                    (plan_deliveries tbl discard entries st).1).count f.path)
          else true) = true := by
    show f.path ∈ List.filter _ _ ↔ _
    rw [List.mem_filter]
  cases hp : f.parsed with
  | none =>
    have hfd : fileDeletes tbl discard folder f = [] := by
      unfold fileDeletes
      rw [hp]
    rw [hLHS, hdeliff, hfd]
    simp [hp]
  | some msg =>
    have hfc : fileCopies tbl folder f
        = (routes_for_source tbl folder msg.channel).map (fun dd =>
            { src := f.path, msg := msg, destFolder := dd.2,
              destChannel := dd.1 }) := by
      unfold fileCopies
      rw [hp]
    have hfd : fileDeletes tbl discard folder f
        = (if routes_for_source tbl folder msg.channel = [] then
             (if discard then [f.path] else [])
           else [f.path]) := by
      unfold fileDeletes
      rw [hp]
    by_cases hr : routes_for_source tbl folder msg.channel = []
    · have hplanned : ¬ f.path ∈
          ((plan_deliveries tbl discard entries st).1).map (·.src) := by
        rw [mem_map_src_iff, hfilter, hfc, hr]
        simp
      rw [hLHS, hdeliff, hfd, if_pos hr, if_neg hplanned]
      by_cases hd : discard = true
      · rw [if_pos hd]
        constructor
        · intro _
          exact ⟨msg, rfl, Or.inl ⟨hr, hd⟩⟩
        · intro _
          exact ⟨List.mem_singleton.mpr rfl, rfl⟩
      · rw [if_neg hd]
        constructor
        · rintro ⟨h0, _⟩
          exact absurd h0 (List.not_mem_nil _)
        · rintro ⟨msg2, hmsg2, h | h⟩
          · cases hmsg2
            exact absurd h.2 hd
          · cases hmsg2
            exact absurd hr h.1
    · have hne : fileCopies tbl folder f ≠ [] := by
        rw [hfc]
        intro hnil
        exact hr (List.map_eq_nil_iff.mp hnil)
      have hplanned : f.path ∈
          ((plan_deliveries tbl discard entries st).1).map (·.src) := by
        rw [mem_map_src_iff, hfilter]
        exact hne
      have hplanlen :
          (((plan_deliveries tbl discard entries st).1).map (·.src)).count
              f.path
            = (((plan_deliveries tbl discard entries st).1).enum.filter
                (fun p => p.2.src == f.path)).length := by
        rw [count_map_src]
        exact (length_filter_enum_snd
          ((plan_deliveries tbl discard entries st).1)
          (fun c : CopyOp => c.src == f.path)).symm
      have hplanpos :
          0 < (((plan_deliveries tbl discard entries st).1).enum.filter
              (fun p => p.2.src == f.path)).length := by
        rw [← hplanlen, count_map_src, hfilter]
        exact List.length_pos.mpr hne
      have hdp1 : (delivery_pass tbl discard dE wOk entries st).1
          = (plan_deliveries tbl discard entries st).1 := rfl
      rw [hLHS, hdeliff, hfd, if_neg hr, if_pos hplanned, hdp1]
      constructor
      · rintro ⟨_, hcond⟩
        have hcond2 := of_decide_eq_true hcond
        refine ⟨msg, rfl, Or.inr ⟨hr, ?_⟩⟩
        rw [(all_succeed_iff_counts dE wOk
          (plan_deliveries tbl discard entries st).1 f.path)]
        have hle := succ_le_planned dE wOk
          (plan_deliveries tbl discard entries st).1 f.path
        have hc2 := hcond2.2
        rw [hplanlen, count_execute_copies] at hc2
        omega
      · rintro ⟨msg2, hmsg2, h | h⟩
        · cases hmsg2
          exact absurd h.1 hr
        · cases hmsg2
          have hall := (all_succeed_iff_counts dE wOk
            (plan_deliveries tbl discard entries st).1 f.path).mp h.2
          refine ⟨List.mem_singleton.mpr rfl, ?_⟩
          rw [decide_eq_true_eq]
          constructor
          · rw [mem_execute_copies, count_execute_copies, hall]
            exact hplanpos
          · rw [hplanlen, count_execute_copies, hall]

/-- Witness for C2: one routed readable file whose single copy succeeds —
the delete decision matches the success condition. -/
theorem claim_C2_delete_iff_witness :
    (⟨"/src/m1.json", some ⟨"data", "p", "1"⟩⟩ : SrcFile).path
        ∈ (delivery_pass [⟨"/src", "data", "received", "/dest"⟩] true
            (fun fo => fo == "/dest") (fun _ => true)
            [("/src", ⟨"/src/m1.json", some ⟨"data", "p", "1"⟩⟩)]
            ⟨0, 0, 0, 0, 0, 0⟩).2.2
      ↔ ∃ msg,
          (⟨"/src/m1.json", some ⟨"data", "p", "1"⟩⟩ : SrcFile).parsed
              = some msg ∧
          ((routes_for_source [⟨"/src", "data", "received", "/dest"⟩] "/src"
                msg.channel = [] ∧ true = true)
           ∨ (routes_for_source [⟨"/src", "data", "received", "/dest"⟩] "/src"
                msg.channel ≠ [] ∧
              ∀ p ∈ ((delivery_pass [⟨"/src", "data", "received", "/dest"⟩]
                  true (fun fo => fo == "/dest") (fun _ => true)
                  [("/src", ⟨"/src/m1.json", some ⟨"data", "p", "1"⟩⟩)]
                  ⟨0, 0, 0, 0, 0, 0⟩).1).enum,
                p.2.src
                    = (⟨"/src/m1.json", some ⟨"data", "p", "1"⟩⟩ : SrcFile).path →
                copySucceeds (fun fo => fo == "/dest") (fun _ => true) p.1 p.2
                  = true)) :=
  claim_C2_delete_iff _ _ _ _ _ _ (by decide) "/src" _ (by decide)

end Patchboard

namespace IntraFlowHeap

theorem hfind_hDeliver (comps : List HComp) (d : String) (ref : Nat)
    (j : String) :
    (hDeliver comps d ref).find? (fun c => c.id == j)
      = if j = d then
          (comps.find? (fun c => c.id == j)).map
            (fun c => { c with inbox := c.inbox ++ [ref] })
        else comps.find? (fun c => c.id == j) := by
  induction comps with
  | nil => simp [hDeliver]
  | cons c rest ih =>
    unfold hDeliver at ih ⊢
    simp only [List.map_cons]
    by_cases hd : c.id = d
    · rw [if_pos (by simpa using hd)]
      by_cases hj : c.id = j
      · have hjd : j = d := hj.symm.trans hd
        rw [List.find?_cons_of_pos _ (by simp [hj]),
          List.find?_cons_of_pos _ (by simp [hj]), if_pos hjd]
        rfl
      · have hjd : ¬ j = d := fun h => hj (hd.symm ▸ h.symm ▸ rfl)
        rw [List.find?_cons_of_neg _ (by simp [hj]),
          List.find?_cons_of_neg _ (by simp [hj]), ih]
    · rw [if_neg (by simpa using hd)]
      by_cases hj : c.id = j
      · have hjd : ¬ j = d := fun h => hd (hj.symm ▸ h ▸ rfl)
        rw [List.find?_cons_of_pos _ (by simp [hj]),
          List.find?_cons_of_pos _ (by simp [hj]), if_neg hjd]
      · rw [List.find?_cons_of_neg _ (by simp [hj]),
          List.find?_cons_of_neg _ (by simp [hj]), ih]

theorem hInboxOf_hDeliver_ne (comps : List HComp) (d : String) (ref : Nat)
    (j : String) (h : j ≠ d) :
    hInboxOf (hDeliver comps d ref) j = hInboxOf comps j := by
  unfold hInboxOf
  rw [hfind_hDeliver, if_neg h]

theorem hInboxOf_hDeliver_self (comps : List HComp) (d : String) (ref : Nat)
    (hpres : (comps.find? (fun c => c.id == d)).isSome) :
    hInboxOf (hDeliver comps d ref) d = hInboxOf comps d ++ [ref] := by
  unfold hInboxOf
  rw [hfind_hDeliver, if_pos rfl]
  cases hc : comps.find? (fun c => c.id == d) with
  | none => rw [hc] at hpres; simp at hpres
  | some c => simp

theorem hids_hDeliver (comps : List HComp) (d : String) (ref : Nat) :
    (hDeliver comps d ref).map (·.id) = comps.map (·.id) := by
  induction comps with
  | nil => rfl
  | cons c rest ih =>
    unfold hDeliver at ih ⊢
    simp only [List.map_cons]
    by_cases hd : c.id = d
    · rw [if_pos (by simpa using hd), ih]
    · rw [if_neg (by simpa using hd), ih]

theorem hfind_isSome_iff (comps : List HComp) (j : String) :
    (comps.find? (fun c => c.id == j)).isSome ↔ j ∈ comps.map (·.id) := by
  induction comps with
  | nil => simp
  | cons c rest ih =>
    by_cases hj : c.id = j
    · rw [List.find?_cons_of_pos _ (by simp [hj])]
      simp [hj]
    · rw [List.find?_cons_of_neg _ (by simp [hj])]
      simp only [List.map_cons, List.mem_cons, ih]
      constructor
      · exact Or.inr
      · rintro (h | h)
        · exact (hj h.symm).elim
        · exact h

theorem fanoutDeliver_heap (m : MsgObj) (F : List (String × String)) :
    ∀ (heap : List MsgObj) (comps : List HComp),
      (fanoutDeliver heap m F comps).1
        = heap ++ F.map (fun dd =>
            { channel := dd.2, sigRef := m.sigRef,
              timestamp := m.timestamp }) := by
  induction F with
  | nil => intro heap comps; simp [fanoutDeliver]
  | cons dd F ih =>
    intro heap comps
    rw [fanoutDeliver, ih, List.map_cons, List.append_assoc]
    rfl

theorem fanoutDeliver_inbox (m : MsgObj) (F : List (String × String)) :
    ∀ (heap : List MsgObj) (comps : List HComp) (d : String),
      (comps.find? (fun c => c.id == d)).isSome →
      hInboxOf (fanoutDeliver heap m F comps).2 d
        = hInboxOf comps d ++ refsFor heap.length d F := by
  induction F with
  | nil => intro heap comps d _; simp [fanoutDeliver, refsFor]
  | cons dd F ih =>
    intro heap comps d hpres
    have hpres' : ((hDeliver comps dd.1 heap.length).find?
        (fun c => c.id == d)).isSome := by
      rw [hfind_isSome_iff, hids_hDeliver, ← hfind_isSome_iff]
      exact hpres
    rw [fanoutDeliver, ih _ _ _ hpres', refsFor]
    simp only [List.length_append, List.length_singleton]
    by_cases hd : dd.1 = d
    · rw [hd, hInboxOf_hDeliver_self comps d heap.length hpres,
        if_pos rfl, List.append_assoc]
    · rw [hInboxOf_hDeliver_ne comps dd.1 heap.length d
        (fun h => hd h.symm), if_neg hd, List.nil_append]

theorem refsFor_bounds (d : String) (F : List (String × String)) :
    ∀ (base : Nat) (r : Nat), r ∈ refsFor base d F →
      base ≤ r ∧ r < base + F.length := by
  induction F with
  | nil => intro base r h; cases h
  | cons dd F ih =>
    intro base r h
    rw [refsFor] at h
    rcases List.mem_append.mp h with h1 | h1
    · by_cases hd : dd.1 = d
      · rw [if_pos hd] at h1
        rcases List.mem_singleton.mp h1 with rfl
        simp
      · rw [if_neg hd] at h1
        cases h1
    · have := ih (base + 1) r h1
      constructor <;> [omega; (simp only [List.length_cons]; omega)]

theorem refsFor_disjoint (d d' : String) (hne : d ≠ d')
    (F : List (String × String)) :
    ∀ (base : Nat) (r : Nat), r ∈ refsFor base d F →
      ∀ (r' : Nat), r' ∈ refsFor base d' F → r ≠ r' := by
  induction F with
  | nil => intro base r h; cases h
  | cons dd F ih =>
    intro base r h r' h'
    rw [refsFor] at h h'
    rcases List.mem_append.mp h with h1 | h1 <;>
      rcases List.mem_append.mp h' with h2 | h2
    · by_cases hd : dd.1 = d
      · have : ¬ dd.1 = d' := fun hc => hne (hd ▸ hc ▸ rfl)
        rw [if_neg this] at h2
        cases h2
      · rw [if_neg hd] at h1
        cases h1
    · by_cases hd : dd.1 = d
      · rw [if_pos hd] at h1
        have hrb := List.mem_singleton.mp h1
        have hb := refsFor_bounds d' F (base + 1) r' h2
        omega
      · rw [if_neg hd] at h1
        cases h1
    · by_cases hd : dd.1 = d'
      · rw [if_pos hd] at h2
        have hrb := List.mem_singleton.mp h2
        have hb := refsFor_bounds d F (base + 1) r h1
        omega
      · rw [if_neg hd] at h2
        cases h2
    · exact ih (base + 1) r h1 r' h2

theorem modifyAt_getElem_ne {alpha : Type} (l : List alpha) :
    ∀ (r r' : Nat), r ≠ r' → ∀ g : alpha → alpha,
      (modifyAt l r g)[r']? = l[r']? := by
  induction l with
  | nil => intro r r' _ g; cases r <;> rfl
  | cons a t ih =>
    intro r r' hne g
    cases r with
    | zero =>
      cases r' with
      | zero => exact absurd rfl hne
      | succ n => rfl
    | succ n =>
      cases r' with
      | zero => simp [modifyAt]
      | succ n' =>
        simp only [modifyAt, List.getElem?_cons_succ]
        exact ih n n' (fun h => hne (by rw [h])) g

/-- C6 as stated is false: the fanout loop builds a fresh envelope dict per
destination, but `new_msg["signal"] = msg["signal"]` copies the signal
*reference*, so the copies share one signal payload object.  Concretely:
one message fanned out to `d1` and `d2` yields distinct envelopes (heap
addresses 1 and 2), yet mutating the signal payload reached through `d1`'s
delivered message changes the signal observed through `d2`'s. -/
theorem claim_C6_counterexample :
    hInboxOf (fanoutDeliver [⟨"broadcast", 0, "t0"⟩] ⟨"broadcast", 0, "t0"⟩
        [("d1", "in"), ("d2", "in")] [⟨"d1", []⟩, ⟨"d2", []⟩]).2 "d1" = [1]
    ∧ hInboxOf (fanoutDeliver [⟨"broadcast", 0, "t0"⟩] ⟨"broadcast", 0, "t0"⟩
        [("d1", "in"), ("d2", "in")] [⟨"d1", []⟩, ⟨"d2", []⟩]).2 "d2" = [2]
    ∧ (1 : Nat) ≠ 2
    ∧ observedSignal ["d42"]
        (fanoutDeliver [⟨"broadcast", 0, "t0"⟩] ⟨"broadcast", 0, "t0"⟩
          [("d1", "in"), ("d2", "in")] [⟨"d1", []⟩, ⟨"d2", []⟩]).1 2
      = some "d42"
    ∧ ((fanoutDeliver [⟨"broadcast", 0, "t0"⟩] ⟨"broadcast", 0, "t0"⟩
          [("d1", "in"), ("d2", "in")] [⟨"d1", []⟩, ⟨"d2", []⟩]).1[1]?).map
        MsgObj.sigRef = some 0
    ∧ observedSignal (["d42"].set 0 "mut")
        (fanoutDeliver [⟨"broadcast", 0, "t0"⟩] ⟨"broadcast", 0, "t0"⟩
          [("d1", "in"), ("d2", "in")] [⟨"d1", []⟩, ⟨"d2", []⟩]).1 2
      = some "mut" := by
  decide

/-- C6 (amended): Phase 1's fanout delivers pairwise-distinct, freshly
allocated envelope objects — mutating one delivered envelope leaves every
other delivered message's envelope untouched — but all fanout copies of a
message carry the *same* signal reference as the original, so mutating the
signal payload through one copy is observed through every copy. -/
theorem claim_C6_fanout_allocation (heap : List MsgObj) (m : MsgObj)
    (F : List (String × String)) (comps : List HComp) :
    (fanoutDeliver heap m F comps).1
        = heap ++ F.map (fun dd =>
            { channel := dd.2, sigRef := m.sigRef,
              timestamp := m.timestamp })
    ∧ (∀ d, (comps.find? (fun c => c.id == d)).isSome →
        hInboxOf (fanoutDeliver heap m F comps).2 d
          = hInboxOf comps d ++ refsFor heap.length d F)
    ∧ (∀ d r, r ∈ refsFor heap.length d F →
        heap.length ≤ r ∧ r < heap.length + F.length)
    ∧ (∀ d d', d ≠ d' → ∀ r ∈ refsFor heap.length d F,
        ∀ r' ∈ refsFor heap.length d' F, r ≠ r')
    ∧ (∀ r, heap.length ≤ r → r < heap.length + F.length →
        (((fanoutDeliver heap m F comps).1)[r]?).map MsgObj.sigRef
          = some m.sigRef)
    ∧ (∀ r r' : Nat, r ≠ r' → ∀ g : MsgObj → MsgObj,
        (modifyAt (fanoutDeliver heap m F comps).1 r g)[r']?
          = ((fanoutDeliver heap m F comps).1)[r']?) := by
  refine ⟨fanoutDeliver_heap m F heap comps, ?_, ?_, ?_, ?_, ?_⟩
  · intro d hpres
    exact fanoutDeliver_inbox m F heap comps d hpres
  · intro d r hr
    exact refsFor_bounds d F heap.length r hr
  · intro d d' hne r hr r' hr'
    exact refsFor_disjoint d d' hne F heap.length r hr r' hr'
  · intro r h1 h2
    rw [fanoutDeliver_heap, List.getElem?_append_right (by simpa using h1),
      List.getElem?_map]
    have hlt : r - heap.length < F.length := by omega
    rw [List.getElem?_eq_getElem hlt]
    rfl
  · intro r r' hne g
    exact modifyAt_getElem_ne _ r r' hne g

/-- Witness for the amended C6 at the concrete two-destination fanout. -/
theorem claim_C6_fanout_allocation_witness :
    hInboxOf (fanoutDeliver [⟨"broadcast", 0, "t0"⟩] ⟨"broadcast", 0, "t0"⟩
        [("d1", "in"), ("d2", "in")] [⟨"d1", []⟩, ⟨"d2", []⟩]).2 "d1"
      = hInboxOf [⟨"d1", []⟩, ⟨"d2", []⟩] "d1"
        ++ refsFor 1 "d1" [("d1", "in"), ("d2", "in")]
    ∧ ((fanoutDeliver [⟨"broadcast", 0, "t0"⟩] ⟨"broadcast", 0, "t0"⟩
          [("d1", "in"), ("d2", "in")] [⟨"d1", []⟩, ⟨"d2", []⟩]).1[1]?).map
        MsgObj.sigRef = some 0 :=
  ⟨(claim_C6_fanout_allocation [⟨"broadcast", 0, "t0"⟩]
      ⟨"broadcast", 0, "t0"⟩ [("d1", "in"), ("d2", "in")]
      [⟨"d1", []⟩, ⟨"d2", []⟩]).2.1 "d1" (by decide),
   (claim_C6_fanout_allocation [⟨"broadcast", 0, "t0"⟩]
      ⟨"broadcast", 0, "t0"⟩ [("d1", "in"), ("d2", "in")]
      [⟨"d1", []⟩, ⟨"d2", []⟩]).2.2.2.2.1 1 (by decide) (by decide)⟩

end IntraFlowHeap
